import Mathlib

/-!
# golearn: a shallow embedding of the exercise helpers

The helper functions of three programs are embedded:

* `projects/1std-grade-analyzer/main.go`: `average`, `minMax`, `safeDivide`
* `projects/2shopping-cart/main.go`: `applyDiscount`, `discountGenerator`
* `projects/3config-generator/main.go`: `validateIP`, `countActive`, `longestName`,
  `generateConfig`

Conventions of the embedding.

* Go `int` is the two's-complement integer of a 64-bit platform: values are `Int`s in
  `[-2^63, 2^63)` and an arithmetic result that can leave this range is reduced by
  `wrap64`.
* Go `float64` is IEEE 754 binary64: a finite value is the rational it denotes, every
  operation and conversion rounds its exact result to nearest (ties to even, `round64`),
  and the infinities and `NaN` are values of `F64`.
* A call ends in one of three ways, recorded by `Outcome`: a normal return, a return
  that carries a non-nil `error`, or a run-time panic.
* `for ... range` over a slice is structural recursion over the list; over a map it
  is recursion over the entries in the order the run time happens to deliver them.
-/

namespace GoLearn

/-! ## Machine model -/

/-- Smallest value of a 64-bit Go `int`. -/
def minInt64 : Int := -(2 ^ 63)

/-- Largest value of a 64-bit Go `int`. -/
def maxInt64 : Int := 2 ^ 63 - 1

/-- The values a 64-bit Go `int` can hold. -/
def inInt64 (x : Int) : Prop := minInt64 ≤ x ∧ x ≤ maxInt64

instance (x : Int) : Decidable (inInt64 x) := by
  unfold inInt64; infer_instance

/-- Two's-complement reduction of a mathematical integer to a 64-bit Go `int`. -/
def wrap64 (x : Int) : Int := (x + 2 ^ 63) % 2 ^ 64 - 2 ^ 63

/-! ## float64

IEEE 754 binary64 with the default rounding (to nearest, ties to even), which is what
Go's `float64` arithmetic and conversions use.  A finite value is the rational it
denotes; the two zeros are one value (Go's `==` does not tell them apart, and the
sources divide only by `float64(len(nums))` and by the constant `100`, never by a
negative zero). -/

/-- A `float64`: a finite value (the rational it denotes), an infinity or `NaN`. -/
inductive F64 where
  | fin (q : ℚ)
  | posInf
  | negInf
  | nan
  deriving DecidableEq

/-- Number of halvings that bring `n` below 2, at most `fuel` of them. -/
def log2Fuel : Nat → Nat → Nat
  | 0, _ => 0
  | fuel + 1, n => if n < 2 then 0 else log2Fuel fuel (n / 2) + 1

/-- For `n ≥ 1` the integer part of the binary logarithm: `2^(natLog2 n) ≤ n < 2^(natLog2 n + 1)`
(`n` halvings always suffice). -/
def natLog2 (n : Nat) : Nat := log2Fuel n n

/-- The power `2^k` for an integer `k`, as a rational. -/
def pow2 (k : Int) : ℚ :=
  if 0 ≤ k then ((2 ^ k.toNat : Nat) : ℚ) else 1 / ((2 ^ (-k).toNat : Nat) : ℚ)

/-- For `a > 0` the binary exponent of `a`: `2^(ilog2 a) ≤ a < 2^(ilog2 a + 1)`.  The
bit lengths of numerator and denominator give it up to one, the comparison settles it. -/
def ilog2 (a : ℚ) : Int :=
  let k : Int := (natLog2 a.num.natAbs : Int) - (natLog2 a.den : Int)
  if pow2 k ≤ a then k else k - 1

/-- Nearest integer to `x ≥ 0`, a tie going to the even neighbour. -/
def roundHalfEven (x : ℚ) : Int :=
  let f := ⌊x⌋
  let r := x - (f : ℚ)
  if r < 1 / 2 then f
  else if 1 / 2 < r then f + 1
  else if f % 2 = 0 then f else f + 1

/-- Exponent of the spacing of the `float64` values around `a > 0`: 53 significant
bits, and the fixed spacing `2^-1074` of the subnormal range below `2^-1022`. -/
def quantumExp (a : ℚ) : Int := max (ilog2 a) (-1022) - 52

/-- The magnitude `a > 0` rounded to a multiple of the spacing around it. -/
def roundMag (a : ℚ) : ℚ :=
  (roundHalfEven (a / pow2 (quantumExp a)) : ℚ) * pow2 (quantumExp a)

/-- Rounding of an exact result to `float64`: to nearest, ties to even; a magnitude
that rounds to `2^1024` or more overflows to the infinity of its sign. -/
def round64 (q : ℚ) : F64 :=
  if q = 0 then F64.fin 0
  else
    let r := roundMag |q|
    if pow2 1024 ≤ r then (if 0 < q then F64.posInf else F64.negInf)
    else F64.fin (if 0 < q then r else -r)

/-- The rationals that are `float64` values: at most 53 significant bits with the
exponent of the last bit between -1074 and 971. -/
def IsFloat64 (q : ℚ) : Prop :=
  ∃ m e : Int, |m| < 2 ^ 53 ∧ -1074 ≤ e ∧ e ≤ 971 ∧ q = (m : ℚ) * (2 : ℚ) ^ e

/-- Conversion `float64(n)` of an integer: the nearest `float64`. -/
def F64.ofInt (n : Int) : F64 := round64 (n : ℚ)

/-- Negation (exact). -/
def F64.neg : F64 → F64
  | F64.fin a => F64.fin (-a)
  | F64.posInf => F64.negInf
  | F64.negInf => F64.posInf
  | F64.nan => F64.nan

/-- Float addition `x + y`. -/
def F64.add : F64 → F64 → F64
  | F64.nan, _ => F64.nan
  | _, F64.nan => F64.nan
  | F64.posInf, F64.negInf => F64.nan
  | F64.negInf, F64.posInf => F64.nan
  | F64.posInf, _ => F64.posInf
  | _, F64.posInf => F64.posInf
  | F64.negInf, _ => F64.negInf
  | _, F64.negInf => F64.negInf
  | F64.fin a, F64.fin b => round64 (a + b)

/-- Float subtraction `x - y`. -/
def F64.sub (x y : F64) : F64 := F64.add x (F64.neg y)

/-- Float multiplication `x * y`. -/
def F64.mul : F64 → F64 → F64
  | F64.nan, _ => F64.nan
  | _, F64.nan => F64.nan
  | F64.posInf, F64.posInf => F64.posInf
  | F64.posInf, F64.negInf => F64.negInf
  | F64.negInf, F64.posInf => F64.negInf
  | F64.negInf, F64.negInf => F64.posInf
  | F64.posInf, F64.fin b =>
    if b = 0 then F64.nan else if 0 < b then F64.posInf else F64.negInf
  | F64.negInf, F64.fin b =>
    if b = 0 then F64.nan else if 0 < b then F64.negInf else F64.posInf
  | F64.fin a, F64.posInf =>
    if a = 0 then F64.nan else if 0 < a then F64.posInf else F64.negInf
  | F64.fin a, F64.negInf =>
    if a = 0 then F64.nan else if 0 < a then F64.negInf else F64.posInf
  | F64.fin a, F64.fin b => round64 (a * b)

/-- Float division `x / y`.  Go does not panic on a zero float divisor: `0 / 0` is
`NaN` and any other quotient by zero an infinity.  A zero divisor is the positive
zero (see the head of this section). -/
def F64.div : F64 → F64 → F64
  | F64.nan, _ => F64.nan
  | _, F64.nan => F64.nan
  | F64.posInf, F64.fin b => if 0 ≤ b then F64.posInf else F64.negInf
  | F64.negInf, F64.fin b => if 0 ≤ b then F64.negInf else F64.posInf
  | F64.fin _, F64.posInf => F64.fin 0
  | F64.fin _, F64.negInf => F64.fin 0
  | F64.fin a, F64.fin b =>
    if b = 0 then
      if a = 0 then F64.nan else if 0 < a then F64.posInf else F64.negInf
    else round64 (a / b)
  | _, _ => F64.nan

/-- Float comparison `x < y`: false as soon as one side is `NaN`. -/
def F64.lt : F64 → F64 → Bool
  | F64.nan, _ => false
  | _, F64.nan => false
  | F64.fin a, F64.fin b => decide (a < b)
  | F64.negInf, F64.negInf => false
  | F64.negInf, _ => true
  | _, F64.negInf => false
  | F64.posInf, _ => false
  | F64.fin _, F64.posInf => true

/-- Largest finite `float64` (`math.MaxFloat64`). -/
def maxFloat64 : ℚ := 2 ^ 1024 - 2 ^ 971

/-- The `error` values built in the sources (by `fmt.Errorf`). -/
inductive GoError where
  /-- Text "division by zero is not allowed". -/
  | divisionByZero
  /-- Text "invalid discount: %.2f%%" with the discount as argument. -/
  | invalidDiscount (discount : F64)
  deriving DecidableEq

/-- Run-time panics that the embedded functions can raise. -/
inductive GoPanic where
  /-- Index `i` read from a slice of length `len` (here always `xs[0]` on length 0). -/
  | indexOutOfRange (i len : Nat)
  /-- Integer division or remainder with a zero divisor. -/
  | integerDivideByZero
  deriving DecidableEq

/-- How a call ends. `ok v`: it returns `v` (and a nil error when the signature has
an error result). `fail v e`: it returns `v` together with the non-nil error `e`.
`panic p`: a run-time panic, which ends the process as nothing recovers it. -/
inductive Outcome (α : Type) where
  | ok (v : α)
  | fail (v : α) (e : GoError)
  | panic (p : GoPanic)
  deriving DecidableEq

/-- The call returned a non-nil error to its caller. -/
def Outcome.isError {α : Type} : Outcome α → Bool
  | Outcome.fail _ _ => true
  | _ => false

/-- The call aborted with a run-time panic. -/
def Outcome.isPanic {α : Type} : Outcome α → Bool
  | Outcome.panic _ => true
  | _ => false

/-! ## projects/1std-grade-analyzer/main.go -/

/-- Loop of `average`: `for _, v := range nums { sum += v }` on Go `int`. -/
def sumLoop (sum : Int) : List Int → Int
  | [] => sum
  | v :: vs => sumLoop (wrap64 (sum + v)) vs

/-- Go `average`: `float64(sum) / float64(len(nums))` after the summing loop. -/
def average (nums : List Int) : Outcome F64 :=
  Outcome.ok (F64.div (F64.ofInt (sumLoop 0 nums)) (F64.ofInt (nums.length : Int)))

/-- Loop of `minMax`: both comparisons are made for every element, in order. -/
def minMaxLoop (min max : Int) : List Int → Int × Int
  | [] => (min, max)
  | v :: vs =>
    let min1 := if v < min then v else min
    let max1 := if v > max then v else max
    minMaxLoop min1 max1 vs

/-- Go `minMax`: `min, max := nums[0], nums[0]`, then the loop over all of `nums`. -/
def minMax (nums : List Int) : Outcome (Int × Int) :=
  match nums with
  | [] => Outcome.panic (GoPanic.indexOutOfRange 0 0)
  | n0 :: _ => Outcome.ok (minMaxLoop n0 n0 nums)

/-- Go integer division `a / b`: a run-time panic for a zero divisor (`none`),
otherwise the quotient truncated toward zero and reduced to 64 bits (the one
overflowing case is `minInt64 / -1`, which yields `minInt64`). -/
def goDiv (a b : Int) : Option Int :=
  if b = 0 then none else some (wrap64 (Int.tdiv a b))

/-- Go `safeDivide`: the zero test comes first, then `return a / b, nil`. -/
def safeDivide (a b : Int) : Outcome Int :=
  if b = 0 then Outcome.fail 0 GoError.divisionByZero
  else
    match goDiv a b with
    | some q => Outcome.ok q
    | none => Outcome.panic GoPanic.integerDivideByZero

/-! ## projects/2shopping-cart/main.go -/

/-- Go `applyDiscount`: the range test `discount < 0 || discount > 100` first (the
amount is handed back with the error), otherwise `amount - (amount * discount / 100)`,
each of the three operations rounded. -/
def applyDiscount (amount discount : F64) : Outcome F64 :=
  if F64.lt discount (F64.fin 0) || F64.lt (F64.fin 100) discount then
    Outcome.fail amount (GoError.invalidDiscount discount)
  else
    let final := F64.sub amount (F64.div (F64.mul amount discount) (F64.fin 100))
    Outcome.ok final

/-- State captured by the closure that `discountGenerator` returns: the one variable
`discount`. -/
structure DiscountGen where
  discount : F64
  deriving DecidableEq

/-- Go `discountGenerator`: `discount := base`, then the closure over it. -/
def discountGenerator (base : F64) : DiscountGen := ⟨base⟩

/-- One invocation of the closure: `discount += 5; return discount`.  The result is
the returned value paired with the closure state after the call. -/
def DiscountGen.call (g : DiscountGen) : F64 × DiscountGen :=
  let discount := F64.add g.discount (F64.fin 5)
  (discount, ⟨discount⟩)

/-- Values returned by `n` invocations made one after the other, in call order,
paired with the closure state after the last one. -/
def DiscountGen.calls : Nat → DiscountGen → List F64 × DiscountGen
  | 0, g => ([], g)
  | n + 1, g =>
    let r := g.call
    let rest := DiscountGen.calls n r.2
    (r.1 :: rest.1, rest.2)

/-! ## projects/3config-generator/main.go -/

/-- Library `strings.Split(s, ".")` on the characters of `s`: the segments between
successive dots, in order, so an input without a dot is one segment (the empty input
gives one empty segment).  A dot is the single byte `0x2E`, which occurs in no
multi-byte UTF-8 sequence, so splitting characters and splitting bytes agree. -/
def splitDot : List Char → List (List Char)
  | [] => [[]]
  | c :: cs =>
    if c = '.' then [] :: splitDot cs
    else
      match splitDot cs with
      | seg :: rest => (c :: seg) :: rest
      | [] => [[c]]

/-- Library `strings.Split(ip, ".")` on strings. -/
def stringsSplitDot (ip : String) : List String :=
  (splitDot ip.data).map String.mk

/-- Go `validateIP`: only the number of parts is tested. -/
def validateIP (ip : String) : Bool :=
  let parts := stringsSplitDot ip
  if parts.length ≠ 4 then false else true

/-- Loop of `countActive` over the entries of the map in the order the `range`
statement delivers them.  `count` stays far below `2^63` (a map cannot hold that
many entries), so `count++` is written without reduction. -/
def countActiveLoop (count : Int) : List (String × Bool) → Int
  | [] => count
  | e :: es => countActiveLoop (if e.2 then count + 1 else count) es

/-- Go `countActive`, given the entries of `status` in iteration order. -/
def countActive (status : List (String × Bool)) : Int :=
  countActiveLoop 0 status

/-- Go `len(s)` of a string: its length in bytes. -/
def goLen (s : String) : Nat := s.utf8ByteSize

/-- Loop of `longestName`: the candidate is replaced only by a strictly longer name. -/
def longestNameLoop (longest : String) : List String → String
  | [] => longest
  | d :: ds => longestNameLoop (if goLen d > goLen longest then d else longest) ds

/-- Go `longestName`: `longest := devices[0]`, then the loop over all of `devices`. -/
def longestName (devices : List String) : Outcome String :=
  match devices with
  | [] => Outcome.panic (GoPanic.indexOutOfRange 0 0)
  | d0 :: _ => Outcome.ok (longestNameLoop d0 devices)

/-- Library `fmt.Sprintf` for a format with one `%s` verb: the text before the verb,
the argument, the text after it. -/
def sprintfS (before after arg : String) : String := before ++ arg ++ after

/-- Go `generateConfig`. -/
def generateConfig (name ip : String) (active : Bool) : List String :=
  let config := [
    sprintfS "hostname " "" name,
    "interface eth0",
    sprintfS "  ip address " "/24" ip,
    "  no shutdown",
    "enable secret admin123",
    "line vty 0 4",
    "  login local",
    "  transport input ssh"]
  if !active then config ++ ["shutdown"] else config

/-- A Go map as the list of its entries: every key occurs once. -/
def IsGoMap (entries : List (String × Bool)) : Prop :=
  (entries.map Prod.fst).Nodup

instance (entries : List (String × Bool)) : Decidable (IsGoMap entries) := by
  unfold IsGoMap; infer_instance

/-- The value stored under `key`, if any (`status[key]` with the `ok` flag). -/
def mapGet (entries : List (String × Bool)) (key : String) : Option Bool :=
  (entries.find? (fun e => e.1 = key)).map Prod.snd

/-! # Theorems -/

/-! ## Machine integers -/

theorem wrap64_of_inInt64 (x : Int) (h : inInt64 x) : wrap64 x = x := by
  unfold inInt64 minInt64 maxInt64 at h
  unfold wrap64
  omega

theorem wrap64_add_left (a b : Int) : wrap64 (wrap64 a + b) = wrap64 (a + b) := by
  unfold wrap64
  omega

theorem wrap64_inInt64 (x : Int) : inInt64 (wrap64 x) := by
  unfold inInt64 minInt64 maxInt64 wrap64
  omega

/-! ## average -/

theorem sumLoop_eq (nums : List Int) (sum : Int) :
    sumLoop (wrap64 sum) nums = wrap64 (sum + nums.sum) := by
  induction nums generalizing sum with
  | nil => simp [sumLoop]
  | cons v vs ih =>
    simp only [sumLoop, List.sum_cons]
    rw [wrap64_add_left, ih, add_assoc]

theorem sumLoop_zero (nums : List Int) : sumLoop 0 nums = wrap64 nums.sum := by
  have h := sumLoop_eq nums 0
  have h0 : wrap64 0 = 0 := by decide
  rw [h0] at h
  simpa using h

/-! ## float64 rounding -/

theorem log2Fuel_spec (fuel n : Nat) (hn : 0 < n) (h : n ≤ fuel) :
    2 ^ log2Fuel fuel n ≤ n ∧ n < 2 ^ (log2Fuel fuel n + 1) := by
  induction fuel generalizing n with
  | zero => omega
  | succ fuel ih =>
    unfold log2Fuel
    by_cases h2 : n < 2
    · rw [if_pos h2]
      have : n = 1 := by omega
      subst this
      simp
    · rw [if_neg h2]
      obtain ⟨h3, h4⟩ := ih (n / 2) (by omega) (by omega)
      rw [pow_succ] at h4 ⊢
      rw [pow_succ]
      constructor <;> omega

theorem natLog2_spec (n : Nat) (hn : 0 < n) :
    2 ^ natLog2 n ≤ n ∧ n < 2 ^ (natLog2 n + 1) :=
  log2Fuel_spec n n hn (le_refl n)

theorem pow2_eq (k : Int) : pow2 k = (2 : ℚ) ^ k := by
  unfold pow2
  by_cases hk : 0 ≤ k
  · rw [if_pos hk]
    obtain ⟨n, rfl⟩ := Int.eq_ofNat_of_zero_le hk
    simp
  · rw [if_neg hk]
    obtain ⟨n, hn⟩ := Int.eq_ofNat_of_zero_le (show 0 ≤ -k by omega)
    have hk2 : k = -(n : Int) := by omega
    subst hk2
    simp

theorem pow2_pos (k : Int) : 0 < pow2 k := by
  rw [pow2_eq]
  positivity

/-- The exponent found by `ilog2` is the binary exponent. -/
theorem ilog2_spec (a : ℚ) (ha : 0 < a) :
    (2 : ℚ) ^ ilog2 a ≤ a ∧ a < (2 : ℚ) ^ (ilog2 a + 1) := by
  have hnum : 0 < a.num := Rat.num_pos.2 ha
  have hn : 0 < a.num.natAbs := Int.natAbs_pos.2 (ne_of_gt hnum)
  have hd : 0 < a.den := a.den_pos
  obtain ⟨hn1, hn2⟩ := natLog2_spec _ hn
  obtain ⟨hd1, hd2⟩ := natLog2_spec _ hd
  have ha_eq : a = (a.num.natAbs : ℚ) / (a.den : ℚ) := by
    have h2 : (a.num.natAbs : ℚ) = (a.num : ℚ) := by
      rw [Nat.cast_natAbs, abs_of_pos hnum]
    rw [h2]
    exact (Rat.num_div_den a).symm
  have hdq : (0 : ℚ) < (a.den : ℚ) := by exact_mod_cast hd
  have hn1q : (2 : ℚ) ^ natLog2 a.num.natAbs ≤ (a.num.natAbs : ℚ) := by exact_mod_cast hn1
  have hn2q : (a.num.natAbs : ℚ) < (2 : ℚ) ^ (natLog2 a.num.natAbs + 1) := by exact_mod_cast hn2
  have hd1q : (2 : ℚ) ^ natLog2 a.den ≤ (a.den : ℚ) := by exact_mod_cast hd1
  have hd2q : (a.den : ℚ) < (2 : ℚ) ^ (natLog2 a.den + 1) := by exact_mod_cast hd2
  have two_pos : (0 : ℚ) < 2 := by norm_num
  have two_ne : (2 : ℚ) ≠ 0 := by norm_num
  have hlow : (2 : ℚ) ^ ((natLog2 a.num.natAbs : Int) - (natLog2 a.den : Int) - 1) ≤ a := by
    have e1 : (2 : ℚ) ^ ((natLog2 a.num.natAbs : Int) - (natLog2 a.den : Int) - 1) =
        (2 : ℚ) ^ natLog2 a.num.natAbs / (2 : ℚ) ^ (natLog2 a.den + 1) := by
      rw [show ((natLog2 a.num.natAbs : Int) - (natLog2 a.den : Int) - 1) =
        (natLog2 a.num.natAbs : Int) - ((natLog2 a.den + 1 : Nat) : Int) by push_cast; ring]
      rw [zpow_sub₀ two_ne, zpow_natCast, zpow_natCast]
    rw [e1]
    conv_rhs => rw [ha_eq]
    exact div_le_div₀ (by positivity) hn1q hdq (le_of_lt hd2q)
  have hupp : a < (2 : ℚ) ^ ((natLog2 a.num.natAbs : Int) - (natLog2 a.den : Int) + 1) := by
    have e1 : (2 : ℚ) ^ ((natLog2 a.num.natAbs : Int) - (natLog2 a.den : Int) + 1) =
        (2 : ℚ) ^ (natLog2 a.num.natAbs + 1) / (2 : ℚ) ^ natLog2 a.den := by
      rw [show ((natLog2 a.num.natAbs : Int) - (natLog2 a.den : Int) + 1) =
        ((natLog2 a.num.natAbs + 1 : Nat) : Int) - (natLog2 a.den : Int) by push_cast; ring]
      rw [zpow_sub₀ two_ne, zpow_natCast, zpow_natCast]
    rw [e1]
    conv_lhs => rw [ha_eq]
    exact div_lt_div₀ hn2q hd1q (by positivity) (by positivity)
  unfold ilog2
  simp only
  by_cases hb : pow2 ((natLog2 a.num.natAbs : Int) - (natLog2 a.den : Int)) ≤ a
  · rw [if_pos hb]
    rw [pow2_eq] at hb
    exact ⟨hb, hupp⟩
  · rw [if_neg hb]
    rw [pow2_eq] at hb
    refine ⟨hlow, ?_⟩
    rw [sub_add_cancel]
    exact not_le.1 hb

theorem roundHalfEven_intCast (z : Int) : roundHalfEven (z : ℚ) = z := by
  unfold roundHalfEven
  simp

theorem roundHalfEven_err (x : ℚ) : |(roundHalfEven x : ℚ) - x| ≤ 1 / 2 := by
  unfold roundHalfEven
  have h1 : (⌊x⌋ : ℚ) ≤ x := Int.floor_le x
  have h2 : x < (⌊x⌋ : ℚ) + 1 := Int.lt_floor_add_one x
  simp only
  rw [abs_le]
  split_ifs with c1 c2 c3
  · constructor <;> linarith
  · push_cast; constructor <;> linarith
  · constructor <;> linarith
  · push_cast; constructor <;> linarith


theorem two_zpow_lt_iff (m n : Int) : (2 : ℚ) ^ m < (2 : ℚ) ^ n ↔ m < n :=
  zpow_lt_zpow_iff_right₀ (by norm_num)

theorem two_zpow_le_iff (m n : Int) : (2 : ℚ) ^ m ≤ (2 : ℚ) ^ n ↔ m ≤ n :=
  zpow_le_zpow_iff_right₀ (by norm_num)

theorem roundMag_exact (m e : Int) (hm0 : 0 < m) (hm : m < 2 ^ 53) (he : -1074 ≤ e) :
    roundMag ((m : ℚ) * (2 : ℚ) ^ e) = (m : ℚ) * (2 : ℚ) ^ e := by
  have two_ne : (2 : ℚ) ≠ 0 := by norm_num
  have hmq : (0 : ℚ) < (m : ℚ) := by exact_mod_cast hm0
  have hpe : (0 : ℚ) < (2 : ℚ) ^ e := by positivity
  have ha : (0 : ℚ) < (m : ℚ) * (2 : ℚ) ^ e := mul_pos hmq hpe
  have hlt : (m : ℚ) * (2 : ℚ) ^ e < (2 : ℚ) ^ (e + 53) := by
    rw [zpow_add₀ two_ne, mul_comm]
    have : (m : ℚ) < (2 : ℚ) ^ (53 : Int) := by
      have h53 : (2 : ℚ) ^ (53 : Int) = ((2 ^ 53 : Int) : ℚ) := by norm_num
      rw [h53]
      exact_mod_cast hm
    exact mul_lt_mul_of_pos_left this hpe
  have hlog : ilog2 ((m : ℚ) * (2 : ℚ) ^ e) < e + 53 :=
    (two_zpow_lt_iff _ _).1 (lt_of_le_of_lt (ilog2_spec _ ha).1 hlt)
  have hqe : quantumExp ((m : ℚ) * (2 : ℚ) ^ e) ≤ e := by
    unfold quantumExp
    have := max_le (show ilog2 ((m : ℚ) * (2 : ℚ) ^ e) ≤ e + 52 by omega)
      (show (-1022 : Int) ≤ e + 52 by omega)
    omega
  unfold roundMag
  generalize quantumExp ((m : ℚ) * (2 : ℚ) ^ e) = g at hqe
  obtain ⟨j, hj⟩ := Int.eq_ofNat_of_zero_le (show 0 ≤ e - g by omega)
  have he_eq : e = g + j := by omega
  have hdiv : (m : ℚ) * (2 : ℚ) ^ e / pow2 g = ((m * 2 ^ j : Int) : ℚ) := by
    rw [pow2_eq, he_eq, zpow_add₀ two_ne, zpow_natCast]
    have hg : (2 : ℚ) ^ g ≠ 0 := by positivity
    field_simp
    ring
  rw [hdiv, roundHalfEven_intCast, pow2_eq, he_eq, zpow_add₀ two_ne, zpow_natCast]
  push_cast
  ring


theorem mul_two_zpow_lt (m e : Int) (hm : m < 2 ^ 53) (he : e ≤ 971) :
    (m : ℚ) * (2 : ℚ) ^ e < (2 : ℚ) ^ (1024 : Int) := by
  have two_ne : (2 : ℚ) ≠ 0 := by norm_num
  have hpe : (0 : ℚ) < (2 : ℚ) ^ e := by positivity
  have h53 : (2 : ℚ) ^ (53 : Int) = ((2 ^ 53 : Int) : ℚ) := by norm_num
  have h1 : (m : ℚ) < (2 : ℚ) ^ (53 : Int) := by
    rw [h53]
    exact_mod_cast hm
  have h2 : (m : ℚ) * (2 : ℚ) ^ e < (2 : ℚ) ^ (53 : Int) * (2 : ℚ) ^ e :=
    mul_lt_mul_of_pos_right h1 hpe
  have h3 : (2 : ℚ) ^ (53 : Int) * (2 : ℚ) ^ e = (2 : ℚ) ^ (53 + e) := by
    rw [zpow_add₀ two_ne]
  have h4 : (2 : ℚ) ^ (53 + e) ≤ (2 : ℚ) ^ (1024 : Int) :=
    (two_zpow_le_iff _ _).2 (by omega)
  calc (m : ℚ) * (2 : ℚ) ^ e < (2 : ℚ) ^ (53 : Int) * (2 : ℚ) ^ e := h2
    _ = (2 : ℚ) ^ (53 + e) := h3
    _ ≤ (2 : ℚ) ^ (1024 : Int) := h4

/-- Rounding leaves a `float64` value unchanged. -/
theorem round64_of_isFloat64 (q : ℚ) (h : IsFloat64 q) : round64 q = F64.fin q := by
  obtain ⟨m, e, hm, he1, he2, rfl⟩ := h
  have hpe : (0 : ℚ) < (2 : ℚ) ^ e := by positivity
  have hm' := abs_lt.1 hm
  rcases lt_trichotomy m 0 with hneg | hzero | hpos
  · have hq : (m : ℚ) * (2 : ℚ) ^ e < 0 :=
      mul_neg_of_neg_of_pos (by exact_mod_cast hneg) hpe
    have habs : |(m : ℚ) * (2 : ℚ) ^ e| = ((-m : Int) : ℚ) * (2 : ℚ) ^ e := by
      rw [abs_of_neg hq]; push_cast; ring
    have hex := roundMag_exact (-m) e (by omega) (by omega) he1
    have hov := mul_two_zpow_lt (-m) e (by omega) he2
    unfold round64
    rw [if_neg (ne_of_lt hq)]
    simp only
    rw [habs, hex, pow2_eq, if_neg (not_le.2 hov), if_neg (not_lt.2 (le_of_lt hq))]
    congr 1
    push_cast
    ring
  · subst hzero
    simp [round64]
  · have hq : 0 < (m : ℚ) * (2 : ℚ) ^ e := mul_pos (by exact_mod_cast hpos) hpe
    have hex := roundMag_exact m e hpos (by omega) he1
    have hov := mul_two_zpow_lt m e (by omega) he2
    unfold round64
    rw [if_neg (ne_of_gt hq)]
    simp only
    rw [abs_of_pos hq, hex, pow2_eq, if_neg (not_le.2 hov), if_pos hq]

theorem isFloat64_intCast (n : Int) (hn : |n| ≤ 2 ^ 53) : IsFloat64 (n : ℚ) := by
  by_cases h : |n| < 2 ^ 53
  · exact ⟨n, 0, h, by omega, by omega, by simp⟩
  · have habs : |n| = 2 ^ 53 := le_antisymm hn (not_lt.1 h)
    rcases abs_eq (by norm_num : (0 : Int) ≤ 2 ^ 53) |>.1 habs with h1 | h1
    · exact ⟨2 ^ 52, 1, by norm_num, by omega, by omega, by rw [h1]; norm_num⟩
    · exact ⟨-(2 ^ 52), 1, by norm_num, by omega, by omega, by rw [h1]; norm_num⟩

theorem roundMag_err (a : ℚ) : |roundMag a - a| ≤ pow2 (quantumExp a) / 2 := by
  unfold roundMag
  have hQ : 0 < pow2 (quantumExp a) := pow2_pos _
  generalize pow2 (quantumExp a) = Q at hQ
  have h := roundHalfEven_err (a / Q)
  have e1 : (roundHalfEven (a / Q) : ℚ) * Q - a = ((roundHalfEven (a / Q) : ℚ) - a / Q) * Q := by
    field_simp
  rw [e1, abs_mul, abs_of_pos hQ]
  calc |(roundHalfEven (a / Q) : ℚ) - a / Q| * Q ≤ 1 / 2 * Q :=
        mul_le_mul_of_nonneg_right h (le_of_lt hQ)
    _ = Q / 2 := by ring

theorem ilog2_ge (a : ℚ) (k : Int) (ha : (2 : ℚ) ^ k ≤ a) : k ≤ ilog2 a := by
  have hpos : 0 < a := lt_of_lt_of_le (by positivity) ha
  have h := lt_of_le_of_lt ha (ilog2_spec a hpos).2
  have := (two_zpow_lt_iff _ _).1 h
  omega

theorem ilog2_le (a : ℚ) (k : Int) (hpos : 0 < a) (ha : a ≤ (2 : ℚ) ^ k) : ilog2 a ≤ k :=
  (two_zpow_le_iff _ _).1 (le_trans (ilog2_spec a hpos).1 ha)

theorem roundMag_rel_err (a : ℚ) (ha : (2 : ℚ) ^ (-1022 : Int) ≤ a) :
    |roundMag a - a| ≤ a / 2 ^ 53 := by
  have hpos : 0 < a := lt_of_lt_of_le (by positivity) ha
  have hlog := ilog2_ge a _ ha
  have hq : quantumExp a = ilog2 a - 52 := by
    unfold quantumExp
    rw [max_eq_left hlog]
  have two_ne : (2 : ℚ) ≠ 0 := by norm_num
  have h := roundMag_err a
  rw [hq, pow2_eq] at h
  have e1 : (2 : ℚ) ^ (ilog2 a - 52) / 2 = (2 : ℚ) ^ ilog2 a / 2 ^ 53 := by
    rw [zpow_sub₀ two_ne]
    norm_num
    ring
  rw [e1] at h
  exact le_trans h (div_le_div_of_nonneg_right (ilog2_spec a hpos).1 (by positivity))

theorem roundMag_lt_overflow (a : ℚ) (hpos : 0 < a) (ha : a ≤ (2 : ℚ) ^ (1023 : Int)) :
    roundMag a < pow2 1024 := by
  have hlog := ilog2_le a _ hpos ha
  have hq : quantumExp a ≤ 971 := by
    unfold quantumExp
    have := max_le hlog (show (-1022 : Int) ≤ 1023 by norm_num)
    omega
  have h := (abs_le.1 (roundMag_err a)).2
  have hQ : pow2 (quantumExp a) ≤ (2 : ℚ) ^ (971 : Int) := by
    rw [pow2_eq]
    exact (two_zpow_le_iff _ _).2 hq
  rw [pow2_eq]
  have e1 : (2 : ℚ) ^ (1024 : Int) = 2 * (2 : ℚ) ^ (1023 : Int) := by norm_num
  have e2 : (2 : ℚ) ^ (971 : Int) < (2 : ℚ) ^ (1023 : Int) :=
    (two_zpow_lt_iff _ _).2 (by norm_num)
  have e3 : (0 : ℚ) < (2 : ℚ) ^ (971 : Int) := by positivity
  linarith

/-- Magnitudes up to `2^1023` do not overflow. -/
theorem round64_finite (q : ℚ) (hq : |q| ≤ (2 : ℚ) ^ (1023 : Int)) :
    ∃ r, round64 q = F64.fin r := by
  unfold round64
  by_cases h0 : q = 0
  · exact ⟨0, by rw [if_pos h0]⟩
  · rw [if_neg h0]
    simp only
    rw [if_neg (not_le.2 (roundMag_lt_overflow _ (abs_pos.2 h0) hq))]
    exact ⟨_, rfl⟩

/-- Above the subnormal range a finite result of rounding is within the relative
error `2^-53` of the exact value. -/
theorem round64_rel_err (q r : ℚ) (h : round64 q = F64.fin r)
    (hq : (2 : ℚ) ^ (-1022 : Int) ≤ |q|) : |r - q| ≤ |q| / 2 ^ 53 := by
  have hpos : 0 < |q| := lt_of_lt_of_le (by positivity) hq
  have h0 : q ≠ 0 := abs_pos.1 hpos
  have herr := roundMag_rel_err _ hq
  unfold round64 at h
  rw [if_neg h0] at h
  simp only at h
  rcases lt_or_gt_of_ne h0 with hneg | hp
  · have hn : ¬ 0 < q := not_lt.2 (le_of_lt hneg)
    rw [abs_of_neg hneg] at herr h ⊢
    simp only [if_neg hn] at h
    split_ifs at h
    injection h with h
    rw [← h]
    have e1 : -roundMag (-q) - q = -(roundMag (-q) - -q) := by ring
    rw [e1, abs_neg]
    exact herr
  · rw [abs_of_pos hp] at herr h ⊢
    simp only [if_pos hp] at h
    split_ifs at h
    injection h with h
    rw [← h]
    exact herr

theorem roundHalfEven_nearest (x : ℚ) (z : Int) :
    |(roundHalfEven x : ℚ) - x| ≤ |(z : ℚ) - x| := by
  have h := roundHalfEven_err x
  by_cases hz : z = roundHalfEven x
  · rw [hz]
  · have h1 : (1 : Int) ≤ |z - roundHalfEven x| := Int.one_le_abs (sub_ne_zero.2 hz)
    have h2 : (1 : ℚ) ≤ |(z : ℚ) - (roundHalfEven x : ℚ)| := by
      have : ((1 : Int) : ℚ) ≤ ((|z - roundHalfEven x| : Int) : ℚ) := by exact_mod_cast h1
      rw [Int.cast_abs] at this
      push_cast at this
      exact this
    have h3 : |(z : ℚ) - (roundHalfEven x : ℚ)| ≤
        |(z : ℚ) - x| + |(roundHalfEven x : ℚ) - x| := by
      have := abs_sub_le (z : ℚ) x (roundHalfEven x : ℚ)
      rw [abs_sub_comm x (roundHalfEven x : ℚ)] at this
      exact this
    linarith

theorem roundHalfEven_floor (x : ℚ) :
    roundHalfEven x = ⌊x⌋ ∨ roundHalfEven x = ⌊x⌋ + 1 := by
  unfold roundHalfEven
  simp only
  split_ifs <;> simp

theorem roundMag_sub (a : ℚ) :
    roundMag a - a =
      ((roundHalfEven (a / pow2 (quantumExp a)) : ℚ) - a / pow2 (quantumExp a)) *
        pow2 (quantumExp a) := by
  unfold roundMag
  have hQ : 0 < pow2 (quantumExp a) := pow2_pos _
  field_simp

theorem roundMag_nearest (a : ℚ) (ha : 0 < a) (m e : Int) (hm : |m| < 2 ^ 53)
    (he : -1074 ≤ e) : |roundMag a - a| ≤ |(m : ℚ) * (2 : ℚ) ^ e - a| := by
  have two_ne : (2 : ℚ) ≠ 0 := by norm_num
  have hQ : 0 < pow2 (quantumExp a) := pow2_pos _
  rw [roundMag_sub, abs_mul, abs_of_pos hQ]
  by_cases hge : quantumExp a ≤ e
  · obtain ⟨j, hj⟩ := Int.eq_ofNat_of_zero_le (show 0 ≤ e - quantumExp a by omega)
    have he_eq : e = quantumExp a + j := by omega
    have hy : (m : ℚ) * (2 : ℚ) ^ e - a =
        (((m * 2 ^ j : Int) : ℚ) - a / pow2 (quantumExp a)) * pow2 (quantumExp a) := by
      rw [he_eq, zpow_add₀ two_ne, zpow_natCast, pow2_eq]
      have hg : (2 : ℚ) ^ quantumExp a ≠ 0 := by positivity
      push_cast
      field_simp
      ring
    rw [hy, abs_mul, abs_of_pos hQ]
    exact mul_le_mul_of_nonneg_right (roundHalfEven_nearest _ _) (le_of_lt hQ)
  · have hlt : e < quantumExp a := not_le.1 hge
    have hE : quantumExp a = ilog2 a - 52 := by
      unfold quantumExp at hlt ⊢
      rcases max_cases (ilog2 a) (-1022) with ⟨h1, _⟩ | ⟨h1, _⟩
      · rw [h1]
      · rw [h1] at hlt
        omega
    have hlow := (ilog2_spec a ha).1
    have hpe : (0 : ℚ) < (2 : ℚ) ^ e := by positivity
    have hy1 : (m : ℚ) * (2 : ℚ) ^ e ≤ (2 : ℚ) ^ ilog2 a := by
      have hm1 : (m : ℚ) ≤ (2 : ℚ) ^ (53 : Int) := by
        have h53 : (2 : ℚ) ^ (53 : Int) = ((2 ^ 53 : Int) : ℚ) := by norm_num
        rw [h53]
        have := (abs_lt.1 hm).2
        exact_mod_cast le_of_lt this
      calc (m : ℚ) * (2 : ℚ) ^ e ≤ (2 : ℚ) ^ (53 : Int) * (2 : ℚ) ^ e :=
            mul_le_mul_of_nonneg_right hm1 (le_of_lt hpe)
        _ = (2 : ℚ) ^ (53 + e) := by rw [zpow_add₀ two_ne]
        _ ≤ (2 : ℚ) ^ ilog2 a := (two_zpow_le_iff _ _).2 (by omega)
    have hQeq : ((2 ^ 52 : Int) : ℚ) * pow2 (quantumExp a) = (2 : ℚ) ^ ilog2 a := by
      rw [hE, pow2_eq, zpow_sub₀ two_ne]
      push_cast
      field_simp
      ring
    have hxQ : a / pow2 (quantumExp a) * pow2 (quantumExp a) = a :=
      div_mul_cancel₀ a (ne_of_gt hQ)
    have hx52 : ((2 ^ 52 : Int) : ℚ) ≤ a / pow2 (quantumExp a) := by
      rw [le_div_iff₀ hQ, hQeq]
      exact hlow
    have hn := roundHalfEven_nearest (a / pow2 (quantumExp a)) (2 ^ 52)
    have habs52 : |((2 ^ 52 : Int) : ℚ) - a / pow2 (quantumExp a)| =
        a / pow2 (quantumExp a) - ((2 ^ 52 : Int) : ℚ) := by
      rw [abs_sub_comm]
      exact abs_of_nonneg (by linarith)
    rw [habs52] at hn
    have h1 := mul_le_mul_of_nonneg_right hn (le_of_lt hQ)
    have h2 : (a / pow2 (quantumExp a) - ((2 ^ 52 : Int) : ℚ)) * pow2 (quantumExp a) =
        a - (2 : ℚ) ^ ilog2 a := by
      rw [sub_mul, hxQ, hQeq]
    have h3 : a - (2 : ℚ) ^ ilog2 a ≤ |(m : ℚ) * (2 : ℚ) ^ e - a| := by
      rw [abs_sub_comm]
      exact le_trans (by linarith) (le_abs_self _)
    rw [h2] at h1
    exact le_trans h1 h3

theorem round64_cases (q r : ℚ) (h : round64 q = F64.fin r) :
    (q = 0 ∧ r = 0) ∨ (0 < q ∧ r = roundMag q ∧ roundMag q < pow2 1024) ∨
    (q < 0 ∧ r = -roundMag (-q) ∧ roundMag (-q) < pow2 1024) := by
  unfold round64 at h
  by_cases h0 : q = 0
  · rw [if_pos h0] at h
    injection h with h
    exact Or.inl ⟨h0, h.symm⟩
  · rw [if_neg h0] at h
    simp only at h
    rcases lt_or_gt_of_ne h0 with hneg | hpos
    · have hn : ¬ 0 < q := not_lt.2 (le_of_lt hneg)
      rw [abs_of_neg hneg] at h
      simp only [if_neg hn] at h
      split_ifs at h with c
      injection h with h
      exact Or.inr (Or.inr ⟨hneg, h.symm, not_le.1 c⟩)
    · rw [abs_of_pos hpos] at h
      simp only [if_pos hpos] at h
      split_ifs at h with c
      injection h with h
      exact Or.inr (Or.inl ⟨hpos, h.symm, not_le.1 c⟩)

/-- A finite result of rounding is at least as near to the exact value as every
`float64` value. -/
theorem round64_nearest (q r y : ℚ) (h : round64 q = F64.fin r) (hy : IsFloat64 y) :
    |r - q| ≤ |y - q| := by
  obtain ⟨m, e, hm, he1, _, rfl⟩ := hy
  rcases round64_cases q r h with ⟨h0, hr⟩ | ⟨hpos, hr, _⟩ | ⟨hneg, hr, _⟩
  · rw [h0, hr]
    simp
  · rw [hr]
    exact roundMag_nearest q hpos m e hm he1
  · rw [hr]
    have := roundMag_nearest (-q) (neg_pos.2 hneg) (-m) e (by rw [abs_neg]; exact hm) he1
    have e1 : -roundMag (-q) - q = -(roundMag (-q) - -q) := by ring
    have e2 : (m : ℚ) * (2 : ℚ) ^ e - q = -(((-m : Int) : ℚ) * (2 : ℚ) ^ e - -q) := by
      push_cast
      ring
    rw [e1, e2, abs_neg, abs_neg]
    exact this

theorem roundMag_isFloat64 (a : ℚ) (ha : 0 < a) (hov : roundMag a < pow2 1024) :
    ∃ m e : Int, 0 ≤ m ∧ m < 2 ^ 53 ∧ -1074 ≤ e ∧ e ≤ 971 ∧
      roundMag a = (m : ℚ) * (2 : ℚ) ^ e := by
  have two_ne : (2 : ℚ) ≠ 0 := by norm_num
  have hQ : 0 < pow2 (quantumExp a) := pow2_pos _
  obtain ⟨hlow, hupp⟩ := ilog2_spec a ha
  have hg1 : -1074 ≤ quantumExp a := by
    unfold quantumExp
    have := le_max_right (ilog2 a) (-1022)
    omega
  have hg2 : ilog2 a ≤ quantumExp a + 52 := by
    unfold quantumExp
    have := le_max_left (ilog2 a) (-1022)
    omega
  have hx0 : 0 ≤ a / pow2 (quantumExp a) := le_of_lt (div_pos ha hQ)
  have hxlt : a / pow2 (quantumExp a) < ((2 ^ 53 : Int) : ℚ) := by
    rw [div_lt_iff₀ hQ, pow2_eq]
    have e1 : ((2 ^ 53 : Int) : ℚ) * (2 : ℚ) ^ quantumExp a = (2 : ℚ) ^ (53 + quantumExp a) := by
      rw [zpow_add₀ two_ne]
      norm_num
    rw [e1]
    exact lt_of_lt_of_le hupp ((two_zpow_le_iff _ _).2 (by omega))
  have hf0 : 0 ≤ ⌊a / pow2 (quantumExp a)⌋ := Int.floor_nonneg.2 hx0
  have hf1 : ⌊a / pow2 (quantumExp a)⌋ < 2 ^ 53 := Int.floor_lt.2 hxlt
  have hdef : roundMag a =
      (roundHalfEven (a / pow2 (quantumExp a)) : ℚ) * (2 : ℚ) ^ quantumExp a := by
    unfold roundMag
    rw [pow2_eq]
  have hn0 : 0 ≤ roundHalfEven (a / pow2 (quantumExp a)) := by
    rcases roundHalfEven_floor (a / pow2 (quantumExp a)) with h | h <;> omega
  have hn1 : roundHalfEven (a / pow2 (quantumExp a)) ≤ 2 ^ 53 := by
    rcases roundHalfEven_floor (a / pow2 (quantumExp a)) with h | h <;> omega
  by_cases hn : roundHalfEven (a / pow2 (quantumExp a)) < 2 ^ 53
  · refine ⟨roundHalfEven (a / pow2 (quantumExp a)), quantumExp a, hn0, hn, hg1, ?_, hdef⟩
    by_contra hbig
    have hbig' : 972 ≤ quantumExp a := by omega
    have hE : quantumExp a = ilog2 a - 52 := by
      unfold quantumExp at hbig' ⊢
      rcases max_cases (ilog2 a) (-1022) with ⟨h1, _⟩ | ⟨h1, _⟩
      · rw [h1]
      · rw [h1] at hbig'
        omega
    have hQeq : ((2 ^ 52 : Int) : ℚ) * pow2 (quantumExp a) = (2 : ℚ) ^ ilog2 a := by
      rw [hE, pow2_eq, zpow_sub₀ two_ne]
      push_cast
      field_simp
      ring
    have hx52 : ((2 ^ 52 : Int) : ℚ) ≤ a / pow2 (quantumExp a) := by
      rw [le_div_iff₀ hQ, hQeq]
      exact hlow
    have hf52 : (2 ^ 52 : Int) ≤ ⌊a / pow2 (quantumExp a)⌋ := Int.le_floor.2 hx52
    have hn52 : (2 ^ 52 : Int) ≤ roundHalfEven (a / pow2 (quantumExp a)) := by
      rcases roundHalfEven_floor (a / pow2 (quantumExp a)) with h | h <;> omega
    have hn52q : ((2 ^ 52 : Int) : ℚ) ≤ (roundHalfEven (a / pow2 (quantumExp a)) : ℚ) := by
      exact_mod_cast hn52
    have h1 : (2 : ℚ) ^ ilog2 a ≤ roundMag a := by
      rw [← hQeq]
      unfold roundMag
      exact mul_le_mul_of_nonneg_right hn52q (le_of_lt hQ)
    have h2 : (2 : ℚ) ^ (1024 : Int) ≤ (2 : ℚ) ^ ilog2 a :=
      (two_zpow_le_iff _ _).2 (by omega)
    rw [pow2_eq] at hov
    linarith
  · have hn' : roundHalfEven (a / pow2 (quantumExp a)) = 2 ^ 53 := by omega
    have hval : roundMag a = ((2 ^ 52 : Int) : ℚ) * (2 : ℚ) ^ (quantumExp a + 1) := by
      rw [hdef, hn', zpow_add₀ two_ne]
      push_cast
      ring
    have hval2 : roundMag a = (2 : ℚ) ^ (quantumExp a + 53) := by
      rw [hdef, hn', zpow_add₀ two_ne]
      push_cast
      ring
    have hlt : quantumExp a + 53 < 1024 := by
      rw [pow2_eq, hval2] at hov
      exact (two_zpow_lt_iff _ _).1 hov
    exact ⟨2 ^ 52, quantumExp a + 1, by norm_num, by norm_num, by omega, by omega, hval⟩

/-- A finite result of rounding is a `float64` value. -/
theorem round64_isFloat64 (q r : ℚ) (h : round64 q = F64.fin r) : IsFloat64 r := by
  rcases round64_cases q r h with ⟨_, hr⟩ | ⟨hpos, hr, hov⟩ | ⟨hneg, hr, hov⟩
  · exact ⟨0, 0, by norm_num, by norm_num, by norm_num, by rw [hr]; simp⟩
  · obtain ⟨m, e, hm0, hm1, he1, he2, hv⟩ := roundMag_isFloat64 q hpos hov
    exact ⟨m, e, by rw [abs_of_nonneg hm0]; exact hm1, he1, he2, by rw [hr, hv]⟩
  · obtain ⟨m, e, hm0, hm1, he1, he2, hv⟩ := roundMag_isFloat64 (-q) (neg_pos.2 hneg) hov
    refine ⟨-m, e, by rw [abs_neg, abs_of_nonneg hm0]; exact hm1, he1, he2, ?_⟩
    rw [hr, hv]
    push_cast
    ring

theorem isFloat64_iff (q : ℚ) : IsFloat64 q ↔ round64 q = F64.fin q :=
  ⟨round64_of_isFloat64 q, round64_isFloat64 q q⟩

theorem roundHalfEven_tie (x : ℚ) (h : x - (⌊x⌋ : ℚ) = 1 / 2) : roundHalfEven x % 2 = 0 := by
  unfold roundHalfEven
  simp only [h, lt_irrefl, if_false]
  split_ifs with c
  · exact c
  · omega

/-- Values of `round64` at inputs where IEEE 754 binary64 is easily checked by hand:
ties go to the even neighbour (`2^53 + 1`, `2^53 + 3`), 0.1 and `253 / 3` round to
their known `float64` neighbours, half the spacing above `math.MaxFloat64` overflows
and anything below it does not, and in the subnormal range the spacing is `2^-1074`
(half of it is a tie that goes to 0). -/
theorem round64_samples :
    round64 (2 ^ 53 + 1) = F64.fin (2 ^ 53) ∧
    round64 (2 ^ 53 + 3) = F64.fin (2 ^ 53 + 4) ∧
    round64 (1 / 10) = F64.fin (3602879701896397 / 2 ^ 55) ∧
    round64 (253 / 3) = F64.fin (5934430758982997 / 2 ^ 46) ∧
    round64 (10 ^ 17 + 5) = F64.fin (10 ^ 17) ∧
    round64 maxFloat64 = F64.fin maxFloat64 ∧
    round64 (maxFloat64 + 2 ^ 970) = F64.posInf ∧
    round64 (maxFloat64 + 2 ^ 970 - 1) = F64.fin maxFloat64 ∧
    round64 (-(maxFloat64 * 50)) = F64.negInf ∧
    round64 (1 / 2 ^ 1074) = F64.fin (1 / 2 ^ 1074) ∧
    round64 (1 / 2 ^ 1075) = F64.fin 0 ∧
    round64 (3 / 2 ^ 1075) = F64.fin (2 / 2 ^ 1074) := by
  refine ⟨by decide!, by decide!, by decide!, by decide!, by decide!, by decide!, by decide!,
    by decide!, by decide!, by decide!, by decide!, by decide!⟩

/-! ## minMax -/

theorem minMaxLoop_spec (nums : List Int) (min max : Int) :
    ((minMaxLoop min max nums).1 = min ∨ (minMaxLoop min max nums).1 ∈ nums) ∧
    ((minMaxLoop min max nums).2 = max ∨ (minMaxLoop min max nums).2 ∈ nums) ∧
    (minMaxLoop min max nums).1 ≤ min ∧ max ≤ (minMaxLoop min max nums).2 ∧
    ∀ x ∈ nums, (minMaxLoop min max nums).1 ≤ x ∧ x ≤ (minMaxLoop min max nums).2 := by
  induction nums generalizing min max with
  | nil => simp [minMaxLoop]
  | cons v vs ih =>
    simp only [minMaxLoop]
    have hm1 : ((if v < min then v else min) = v ∨ (if v < min then v else min) = min) ∧
        (if v < min then v else min) ≤ v ∧ (if v < min then v else min) ≤ min := by
      split_ifs <;> omega
    have hm2 : ((if v > max then v else max) = v ∨ (if v > max then v else max) = max) ∧
        v ≤ (if v > max then v else max) ∧ max ≤ (if v > max then v else max) := by
      split_ifs <;> omega
    generalize (if v < min then v else min) = m1 at hm1
    generalize (if v > max then v else max) = m2 at hm2
    obtain ⟨h1, h2, h3, h4, h5⟩ := ih m1 m2
    refine ⟨?_, ?_, by omega, by omega, ?_⟩
    · rcases h1 with h | h
      · rcases hm1.1 with e | e
        · right; rw [h, e]; exact List.mem_cons_self _ _
        · left; rw [h, e]
      · right; exact List.mem_cons_of_mem _ h
    · rcases h2 with h | h
      · rcases hm2.1 with e | e
        · right; rw [h, e]; exact List.mem_cons_self _ _
        · left; rw [h, e]
      · right; exact List.mem_cons_of_mem _ h
    · intro x hx
      rcases List.mem_cons.1 hx with rfl | hx
      · constructor <;> omega
      · exact h5 x hx

/-- C1. On every non-empty list `minMax` returns (without a panic, so the read of
`nums[0]` is in bounds) a pair `(lo, hi)` of elements of the list with
`lo ≤ x ≤ hi` for every element `x`. -/
theorem minMax_spec (nums : List Int) (hne : nums ≠ []) :
    ∃ lo hi, minMax nums = Outcome.ok (lo, hi) ∧ lo ∈ nums ∧ hi ∈ nums ∧
      ∀ x ∈ nums, lo ≤ x ∧ x ≤ hi := by
  cases nums with
  | nil => exact absurd rfl hne
  | cons n0 rest =>
    obtain ⟨h1, h2, _, _, h5⟩ := minMaxLoop_spec (n0 :: rest) n0 n0
    refine ⟨(minMaxLoop n0 n0 (n0 :: rest)).1, (minMaxLoop n0 n0 (n0 :: rest)).2, rfl, ?_, ?_, h5⟩
    · rcases h1 with h | h
      · rw [h]; exact List.mem_cons_self _ _
      · exact h
    · rcases h2 with h | h
      · rw [h]; exact List.mem_cons_self _ _
      · exact h

/-- C1 at the sample scores of the source: `[85, 90, 78]` gives 78 and 90,
`[70, 65, 80]` gives 65 and 80. -/
theorem minMax_spec_witness :
    ([85, 90, 78] : List Int) ≠ [] ∧
    (∃ lo hi, minMax [85, 90, 78] = Outcome.ok (lo, hi) ∧ lo ∈ [85, 90, 78] ∧
      hi ∈ [85, 90, 78] ∧ ∀ x ∈ ([85, 90, 78] : List Int), lo ≤ x ∧ x ≤ hi) ∧
    minMax [85, 90, 78] = Outcome.ok (78, 90) ∧
    minMax [70, 65, 80] = Outcome.ok (65, 80) :=
  ⟨by decide, minMax_spec [85, 90, 78] (by decide), by decide, by decide⟩

/-! ## average: conversion and division -/

theorem ofInt_of_abs_le (n : Int) (hn : |n| ≤ 2 ^ 53) : F64.ofInt n = F64.fin (n : ℚ) :=
  round64_of_isFloat64 _ (isFloat64_intCast n hn)

theorem ofInt_err (n : Int) (hn : inInt64 n) :
    ∃ r : ℚ, F64.ofInt n = F64.fin r ∧ |r - (n : ℚ)| ≤ |(n : ℚ)| / 2 ^ 53 := by
  unfold inInt64 minInt64 maxInt64 at hn
  have habs : |n| ≤ 2 ^ 63 := abs_le.2 ⟨by omega, by omega⟩
  have habsq : |(n : ℚ)| ≤ (2 : ℚ) ^ (63 : Int) := by
    have : ((|n| : Int) : ℚ) ≤ ((2 ^ 63 : Int) : ℚ) := by exact_mod_cast habs
    rw [Int.cast_abs] at this
    calc |(n : ℚ)| ≤ ((2 ^ 63 : Int) : ℚ) := this
      _ = (2 : ℚ) ^ (63 : Int) := by norm_num
  obtain ⟨r, hr⟩ := round64_finite (n : ℚ)
    (le_trans habsq ((two_zpow_le_iff _ _).2 (by norm_num)))
  refine ⟨r, hr, ?_⟩
  by_cases h0 : n = 0
  · subst h0
    have : round64 ((0 : Int) : ℚ) = F64.fin 0 := by simp [round64]
    rw [this] at hr
    injection hr with hr
    rw [← hr]
    simp
  · have h1 : (1 : ℚ) ≤ |(n : ℚ)| := by
      have : (1 : Int) ≤ |n| := Int.one_le_abs h0
      have : ((1 : Int) : ℚ) ≤ ((|n| : Int) : ℚ) := by exact_mod_cast this
      rw [Int.cast_abs] at this
      simpa using this
    have h2 : (2 : ℚ) ^ (-1022 : Int) ≤ 1 := by
      have := (two_zpow_le_iff (-1022) 0).2 (by norm_num)
      simpa using this
    exact round64_rel_err _ r hr (le_trans h2 h1)

theorem div_round_err (x n l : ℚ) (hl1 : 1 ≤ l) (hl2 : l ≤ 2 ^ 53)
    (hx : x = 0 ∨ 1 ≤ |x|) (hx2 : |x| ≤ 2 ^ 63) (hn : |n - x| ≤ |x| / 2 ^ 53) :
    ∃ r : ℚ, round64 (n / l) = F64.fin r ∧ |r - x / l| ≤ |x / l| / 2 ^ 51 := by
  have hl0 : (0 : ℚ) < l := lt_of_lt_of_le one_pos hl1
  rcases hx with hx0 | hx1
  · subst hx0
    have hn0 : n = 0 := by
      have h : |n| ≤ 0 := by simpa using hn
      exact abs_eq_zero.1 (le_antisymm h (abs_nonneg n))
    subst hn0
    exact ⟨0, by simp [round64], by simp⟩
  · have hA : (0 : ℚ) ≤ |x| := abs_nonneg x
    have hup : |n| ≤ |x| + |x| / 2 ^ 53 := by
      have := abs_sub_abs_le_abs_sub n x
      linarith
    have hlow : |x| - |x| / 2 ^ 53 ≤ |n| := by
      have := abs_sub_abs_le_abs_sub x n
      rw [abs_sub_comm x n] at this
      linarith
    have habs : |n / l| = |n| / l := by rw [abs_div, abs_of_pos hl0]
    have hxabs : |x / l| = |x| / l := by rw [abs_div, abs_of_pos hl0]
    have hn2 : |n| ≤ 2 * |x| := by
      have : |x| / 2 ^ 53 ≤ |x| := div_le_self hA (by norm_num)
      linarith
    have hnhalf : (1 : ℚ) / 2 ≤ |n| := by
      have : |x| / 2 ^ 53 ≤ |x| / 2 := div_le_div_of_nonneg_left hA (by norm_num) (by norm_num)
      linarith
    have hbig : |n / l| ≤ (2 : ℚ) ^ (1023 : Int) := by
      rw [habs]
      have h1 : |n| / l ≤ |n| := div_le_self (abs_nonneg n) hl1
      have h2 : (2 : ℚ) ^ (64 : ℕ) ≤ (2 : ℚ) ^ (1023 : Int) := by
        rw [← zpow_natCast]
        exact (two_zpow_le_iff _ _).2 (by norm_num)
      have h3 : (2 : ℚ) * 2 ^ 63 = 2 ^ 64 := by norm_num
      linarith
    have hsmall : (2 : ℚ) ^ (-1022 : Int) ≤ |n / l| := by
      rw [habs, le_div_iff₀ hl0]
      have h1 : (2 : ℚ) ^ (-1022 : Int) * l ≤ (2 : ℚ) ^ (-1022 : Int) * 2 ^ 53 :=
        mul_le_mul_of_nonneg_left hl2 (by positivity)
      have h2 : (2 : ℚ) ^ (-1022 : Int) * 2 ^ 53 = (2 : ℚ) ^ (-969 : Int) := by
        rw [← zpow_natCast, ← zpow_add₀ (by norm_num : (2 : ℚ) ≠ 0)]
        norm_num
      have h3 : (2 : ℚ) ^ (-969 : Int) ≤ (2 : ℚ) ^ (-1 : Int) :=
        (two_zpow_le_iff _ _).2 (by norm_num)
      have h4 : (2 : ℚ) ^ (-1 : Int) = 1 / 2 := by norm_num
      calc (2 : ℚ) ^ (-1022 : Int) * l ≤ (2 : ℚ) ^ (-1022 : Int) * 2 ^ 53 := h1
        _ = (2 : ℚ) ^ (-969 : Int) := h2
        _ ≤ (2 : ℚ) ^ (-1 : Int) := h3
        _ = 1 / 2 := h4
        _ ≤ |n| := hnhalf
    obtain ⟨r, hr⟩ := round64_finite _ hbig
    have herr := round64_rel_err _ r hr hsmall
    refine ⟨r, hr, ?_⟩
    have hsplit : r - x / l = (r - n / l) + (n - x) / l := by ring
    have h2 : |(n - x) / l| ≤ |x| / l / 2 ^ 53 := by
      rw [abs_div, abs_of_pos hl0]
      have := div_le_div_of_nonneg_right hn (le_of_lt hl0)
      calc |n - x| / l ≤ |x| / 2 ^ 53 / l := this
        _ = |x| / l / 2 ^ 53 := by ring
    have h3 : |n / l| / 2 ^ 53 ≤ 2 * (|x| / l) / 2 ^ 53 := by
      rw [habs]
      have : |n| / l ≤ 2 * |x| / l := div_le_div_of_nonneg_right hn2 (le_of_lt hl0)
      have h5 : 2 * |x| / l = 2 * (|x| / l) := by ring
      rw [h5] at this
      exact div_le_div_of_nonneg_right this (by positivity)
    have hB : (0 : ℚ) ≤ |x| / l := div_nonneg hA (le_of_lt hl0)
    rw [hsplit, hxabs]
    calc |r - n / l + (n - x) / l| ≤ |r - n / l| + |(n - x) / l| := abs_add _ _
      _ ≤ 2 * (|x| / l) / 2 ^ 53 + |x| / l / 2 ^ 53 := by linarith
      _ ≤ |x| / l / 2 ^ 51 := by
        have e : (2 : ℚ) * (|x| / l) / 2 ^ 53 + |x| / l / 2 ^ 53 = 3 / 2 ^ 53 * (|x| / l) := by
          ring
        have e2 : |x| / l / 2 ^ 51 = 4 / 2 ^ 53 * (|x| / l) := by
          norm_num
          ring
        rw [e, e2]
        exact mul_le_mul_of_nonneg_right (by norm_num) hB

/-- C2, refuted as stated. First the `int` accumulator wraps: `2^63 - 1` and `1` are
64-bit values with exact sum `2^63` and exact mean `2^62`, and `average` returns
`-2^62`.  Second the result is a `float64`: `float64(2^53 + 1)` is `2^53`, so
`average [2^53 + 1]` is `2^53`, and `253 / 3` is no `float64` value, so
`average [85, 90, 78]` is the `float64` next to it. -/
theorem average_exact_mean_counterexample :
    (inInt64 maxInt64 ∧ inInt64 1 ∧
      (([maxInt64, 1] : List Int).sum : ℚ) / (([maxInt64, 1] : List Int).length : ℚ) = 2 ^ 62 ∧
      average [maxInt64, 1] = Outcome.ok (F64.fin (-(2 ^ 62)))) ∧
    (inInt64 (2 ^ 53 + 1) ∧
      average [2 ^ 53 + 1] = Outcome.ok (F64.fin (2 ^ 53)) ∧
      average [2 ^ 53 + 1] ≠ Outcome.ok (F64.fin (2 ^ 53 + 1))) ∧
    (average [85, 90, 78] = Outcome.ok (F64.fin (5934430758982997 / 2 ^ 46)) ∧
      average [85, 90, 78] ≠ Outcome.ok (F64.fin (253 / 3))) := by
  refine ⟨⟨by decide, by decide, by decide!, by decide!⟩, ⟨by decide, by decide!, by decide!⟩,
    by decide!, by decide!⟩

/-- C2, amended. On a non-empty list (of at most `2^53` elements) whose exact sum `S`
is a 64-bit value, `average` returns a finite `float64` within the relative error
`2^-51` of the exact mean `S / len` (the conversion of `S` and the division round).
When moreover `|S| ≤ 2^53`, the conversion is exact and the result is the exact mean
rounded once to `float64`, within the relative error `2^-53`. -/
theorem average_spec (nums : List Int) (hne : nums ≠ []) (hsum : inInt64 nums.sum)
    (hlen : (nums.length : Int) ≤ 2 ^ 53) :
    (∃ r : ℚ, average nums = Outcome.ok (F64.fin r) ∧
      |r - (nums.sum : ℚ) / (nums.length : ℚ)| ≤
        |(nums.sum : ℚ) / (nums.length : ℚ)| / 2 ^ 51) ∧
    (|nums.sum| ≤ 2 ^ 53 →
      average nums = Outcome.ok (round64 ((nums.sum : ℚ) / (nums.length : ℚ))) ∧
      ∃ r : ℚ, average nums = Outcome.ok (F64.fin r) ∧
        |r - (nums.sum : ℚ) / (nums.length : ℚ)| ≤
          |(nums.sum : ℚ) / (nums.length : ℚ)| / 2 ^ 53) := by
  have hlen0 : nums.length ≠ 0 := fun h => hne (List.length_eq_zero.1 h)
  have hl1 : (1 : ℚ) ≤ (nums.length : ℚ) := by
    have : 1 ≤ nums.length := Nat.one_le_iff_ne_zero.2 hlen0
    exact_mod_cast this
  have hl2 : (nums.length : ℚ) ≤ 2 ^ 53 := by exact_mod_cast hlen
  have hl0 : (nums.length : ℚ) ≠ 0 := by linarith
  have hofl : F64.ofInt (nums.length : Int) = F64.fin (nums.length : ℚ) := by
    have := ofInt_of_abs_le (nums.length : Int) (by rw [abs_of_nonneg (by omega)]; exact hlen)
    simpa using this
  have hdef : ∀ n : ℚ, F64.ofInt nums.sum = F64.fin n →
      average nums = Outcome.ok (round64 (n / (nums.length : ℚ))) := by
    intro n hn
    unfold average
    rw [sumLoop_zero, wrap64_of_inInt64 _ hsum, hn, hofl]
    simp only [F64.div, if_neg hl0]
  have hx : (nums.sum : ℚ) = 0 ∨ 1 ≤ |(nums.sum : ℚ)| := by
    by_cases h0 : nums.sum = 0
    · left; exact_mod_cast h0
    · right
      have : (1 : Int) ≤ |nums.sum| := Int.one_le_abs h0
      have : ((1 : Int) : ℚ) ≤ ((|nums.sum| : Int) : ℚ) := by exact_mod_cast this
      rw [Int.cast_abs] at this
      simpa using this
  have hx2 : |(nums.sum : ℚ)| ≤ 2 ^ 63 := by
    unfold inInt64 minInt64 maxInt64 at hsum
    have habs : |nums.sum| ≤ 2 ^ 63 := abs_le.2 ⟨by omega, by omega⟩
    have : ((|nums.sum| : Int) : ℚ) ≤ ((2 ^ 63 : Int) : ℚ) := by exact_mod_cast habs
    rw [Int.cast_abs] at this
    simpa using this
  constructor
  · obtain ⟨n, hn, hnerr⟩ := ofInt_err nums.sum hsum
    obtain ⟨r, hr, hrerr⟩ := div_round_err _ n _ hl1 hl2 hx hx2 hnerr
    exact ⟨r, by rw [hdef n hn, hr], hrerr⟩
  · intro hsmall
    have hn := ofInt_of_abs_le nums.sum hsmall
    refine ⟨hdef _ hn, ?_⟩
    rcases hx with hx0 | hx1
    · refine ⟨0, by rw [hdef _ hn, hx0]; simp [round64], by rw [hx0]; simp⟩
    · have hxabs : |(nums.sum : ℚ) / (nums.length : ℚ)| =
          |(nums.sum : ℚ)| / (nums.length : ℚ) := by
        rw [abs_div, abs_of_pos (by linarith : (0 : ℚ) < (nums.length : ℚ))]
      have hl0' : (0 : ℚ) < (nums.length : ℚ) := by linarith
      have hbig : |(nums.sum : ℚ) / (nums.length : ℚ)| ≤ (2 : ℚ) ^ (1023 : Int) := by
        rw [hxabs]
        have h1 : |(nums.sum : ℚ)| / (nums.length : ℚ) ≤ |(nums.sum : ℚ)| :=
          div_le_self (abs_nonneg _) hl1
        have h2 : (2 : ℚ) ^ (63 : ℕ) ≤ (2 : ℚ) ^ (1023 : Int) := by
          rw [← zpow_natCast]
          exact (two_zpow_le_iff _ _).2 (by norm_num)
        linarith
      have hlow : (2 : ℚ) ^ (-1022 : Int) ≤ |(nums.sum : ℚ) / (nums.length : ℚ)| := by
        rw [hxabs, le_div_iff₀ hl0']
        have h1 : (2 : ℚ) ^ (-1022 : Int) * (nums.length : ℚ) ≤
            (2 : ℚ) ^ (-1022 : Int) * 2 ^ 53 :=
          mul_le_mul_of_nonneg_left hl2 (by positivity)
        have h2 : (2 : ℚ) ^ (-1022 : Int) * 2 ^ 53 = (2 : ℚ) ^ (-969 : Int) := by
          rw [← zpow_natCast, ← zpow_add₀ (by norm_num : (2 : ℚ) ≠ 0)]
          norm_num
        have h3 : (2 : ℚ) ^ (-969 : Int) ≤ (2 : ℚ) ^ (0 : Int) :=
          (two_zpow_le_iff _ _).2 (by norm_num)
        have h4 : (2 : ℚ) ^ (0 : Int) = 1 := by norm_num
        calc (2 : ℚ) ^ (-1022 : Int) * (nums.length : ℚ) ≤
              (2 : ℚ) ^ (-1022 : Int) * 2 ^ 53 := h1
          _ = (2 : ℚ) ^ (-969 : Int) := h2
          _ ≤ (2 : ℚ) ^ (0 : Int) := h3
          _ = 1 := h4
          _ ≤ |(nums.sum : ℚ)| := hx1
      obtain ⟨r, hr⟩ := round64_finite _ hbig
      exact ⟨r, by rw [hdef _ hn, hr], round64_rel_err _ r hr hlow⟩

/-- C2, amended, at the sample scores: `average [85, 90, 78]` is the `float64` next to
`253 / 3`, which is `5934430758982997 / 2^46 = 84.33333333333333`. -/
theorem average_spec_witness :
    ([85, 90, 78] : List Int) ≠ [] ∧ inInt64 ([85, 90, 78] : List Int).sum ∧
    ((([85, 90, 78] : List Int).length : Nat) : Int) ≤ 2 ^ 53 ∧
    |([85, 90, 78] : List Int).sum| ≤ 2 ^ 53 ∧
    average [85, 90, 78] = Outcome.ok (round64 (253 / 3)) ∧
    round64 (253 / 3) = F64.fin (5934430758982997 / 2 ^ 46) ∧
    |(5934430758982997 / 2 ^ 46 : ℚ) - 253 / 3| ≤ 253 / 3 / 2 ^ 53 := by
  have h := ((average_spec [85, 90, 78] (by decide) (by decide) (by decide)).2
    (by decide)).1
  refine ⟨by decide, by decide, by decide, by decide, ?_, by decide!, by norm_num [abs_le]⟩
  rw [h]
  norm_num

/-! ## The reducers on the empty list -/

/-- C3, refuted as stated. On the empty list it is not the case that `average` and
`minMax` both return an error value and both leave the process running: `average`
returns no error, `minMax` returns no error and panics. -/
theorem reducers_empty_error_counterexample :
    ¬ ((average []).isError = true ∧ (minMax []).isError = true ∧
        (average []).isPanic = false ∧ (minMax []).isPanic = false) ∧
    (average []).isError = false ∧ (minMax []).isError = false ∧
    (minMax []).isPanic = true := by
  refine ⟨?_, rfl, rfl, rfl⟩
  rintro ⟨h, -⟩
  exact Bool.noConfusion h

/-- C3, amended. Neither reducer ever returns an error value (their signatures have no
error result) and `average` never panics.  On the empty list `average` returns the
float quotient `0 / 0`, which is `NaN`, and `minMax` returns no pair. -/
theorem reducers_empty_spec :
    (∀ nums, (average nums).isError = false ∧ (average nums).isPanic = false) ∧
    (∀ nums, (minMax nums).isError = false) ∧
    average [] = Outcome.ok F64.nan ∧
    (∀ v, minMax [] ≠ Outcome.ok v) := by
  refine ⟨fun nums => ⟨rfl, rfl⟩, ?_, ?_, ?_⟩
  · intro nums
    cases nums <;> rfl
  · decide!
  · intro v h
    simp [minMax] at h

/-! ## safeDivide -/

theorem tdiv_inInt64 (a b : Int) (ha : inInt64 a) (hb : b ≠ 0)
    (hne : ¬ (a = minInt64 ∧ b = -1)) : inInt64 (Int.tdiv a b) := by
  unfold inInt64 minInt64 maxInt64 at *
  have habs : (Int.tdiv a b).natAbs ≤ a.natAbs := by
    rw [Int.natAbs_tdiv]
    exact Nat.div_le_self _ _
  by_cases hb1 : b = -1
  · subst hb1
    have : Int.tdiv a (-1) = -a := by
      rw [Int.tdiv_neg, Int.tdiv_one]
    rw [this]
    have : a ≠ -(2 ^ 63) := fun h => hne ⟨h, rfl⟩
    omega
  · by_cases hb2 : b = 1
    · subst hb2
      rw [Int.tdiv_one]
      exact ha
    · have hlt : (Int.tdiv a b).natAbs ≤ a.natAbs / 2 := by
        rw [Int.natAbs_tdiv]
        have h2 : 2 ≤ b.natAbs := by omega
        exact Nat.div_le_div_left h2 (by decide)
      omega

/-- C4, refuted as stated. `minInt64` and `-1` are 64-bit values and the divisor is
not zero; the quotient truncated toward zero is `2^63`, and `safeDivide` returns
`minInt64 = -2^63` with a nil error. -/
theorem safeDivide_quotient_counterexample :
    inInt64 minInt64 ∧ inInt64 (-1) ∧
    Int.tdiv minInt64 (-1) = 2 ^ 63 ∧
    safeDivide minInt64 (-1) = Outcome.ok minInt64 ∧
    safeDivide minInt64 (-1) ≠ Outcome.ok (Int.tdiv minInt64 (-1)) := by
  decide

/-- C4, amended. For 64-bit `a` and `b`: `safeDivide a b` returns an error exactly
when `b = 0`, and then the result is 0; it never panics (the division never runs on a
zero divisor); when `b ≠ 0` it returns, with a nil error, the quotient truncated
toward zero, except at `a = minInt64, b = -1`, where the quotient `2^63` is not a
64-bit value and the result is `minInt64`. -/
theorem safeDivide_spec (a b : Int) (ha : inInt64 a) (hb : inInt64 b) :
    ((safeDivide a b).isError = true ↔ b = 0) ∧
    (b = 0 → safeDivide a b = Outcome.fail 0 GoError.divisionByZero) ∧
    (safeDivide a b).isPanic = false ∧
    (b ≠ 0 → ¬ (a = minInt64 ∧ b = -1) → safeDivide a b = Outcome.ok (Int.tdiv a b)) ∧
    (a = minInt64 ∧ b = -1 → safeDivide a b = Outcome.ok minInt64) := by
  by_cases hb0 : b = 0
  · subst hb0
    refine ⟨by simp [safeDivide, Outcome.isError], fun _ => by simp [safeDivide],
      by simp [safeDivide, Outcome.isPanic], fun h => absurd rfl h, ?_⟩
    rintro ⟨-, h⟩
    exact absurd h (by decide)
  · have hdef : safeDivide a b = Outcome.ok (wrap64 (Int.tdiv a b)) := by
      simp [safeDivide, goDiv, hb0]
    refine ⟨?_, fun h => absurd h hb0, ?_, ?_, ?_⟩
    · rw [hdef]; simp [Outcome.isError, hb0]
    · rw [hdef]; rfl
    · intro _ hne
      rw [hdef, wrap64_of_inInt64 _ (tdiv_inInt64 a b ha hb0 hne)]
    · rintro ⟨rfl, rfl⟩
      decide

/-- C4, amended, at the inputs of the source and the spec: `safeDivide 100 5` is 20
with a nil error, `safeDivide 5 0` is an error with result 0. -/
theorem safeDivide_spec_witness :
    inInt64 100 ∧ inInt64 5 ∧ inInt64 0 ∧
    safeDivide 100 5 = Outcome.ok 20 ∧
    safeDivide 5 0 = Outcome.fail 0 GoError.divisionByZero := by
  refine ⟨by decide, by decide, by decide, ?_, ?_⟩
  · have h := (safeDivide_spec 100 5 (by decide) (by decide)).2.2.2.1 (by decide) (by decide)
    rw [h]
    decide
  · exact (safeDivide_spec 5 0 (by decide) (by decide)).2.1 rfl

/-! ## applyDiscount -/

theorem lt_fin_zero (x : F64) :
    F64.lt x (F64.fin 0) = true ↔ (x = F64.negInf ∨ ∃ p : ℚ, x = F64.fin p ∧ p < 0) := by
  cases x <;> simp [F64.lt]

theorem fin_hundred_lt (x : F64) :
    F64.lt (F64.fin 100) x = true ↔ (x = F64.posInf ∨ ∃ p : ℚ, x = F64.fin p ∧ 100 < p) := by
  cases x <;> simp [F64.lt]

theorem applyDiscount_isError (amount percent : F64) :
    (applyDiscount amount percent).isError =
      (F64.lt percent (F64.fin 0) || F64.lt (F64.fin 100) percent) := by
  unfold applyDiscount
  cases h : (F64.lt percent (F64.fin 0) || F64.lt (F64.fin 100) percent) <;>
    simp [Outcome.isError]

/-- C5, refuted as stated. `math.MaxFloat64` and 50 are `float64` values and 50 lies
within `[0, 100]`; the product overflows, so `applyDiscount` returns `-Inf` with a nil
error and not half the amount.  And for the `float64` next to 0.1 at 10 percent the
three rounded operations give `6485183463413515 / 2^56`, which is not
`amount * (1 - 10 / 100)`. -/
theorem applyDiscount_exact_counterexample :
    (IsFloat64 maxFloat64 ∧ IsFloat64 50 ∧
      applyDiscount (F64.fin maxFloat64) (F64.fin 50) = Outcome.ok F64.negInf ∧
      applyDiscount (F64.fin maxFloat64) (F64.fin 50) ≠
        Outcome.ok (F64.fin (maxFloat64 * (1 - 50 / 100)))) ∧
    (IsFloat64 (3602879701896397 / 2 ^ 55) ∧ IsFloat64 10 ∧
      applyDiscount (F64.fin (3602879701896397 / 2 ^ 55)) (F64.fin 10) =
        Outcome.ok (F64.fin (6485183463413515 / 2 ^ 56)) ∧
      applyDiscount (F64.fin (3602879701896397 / 2 ^ 55)) (F64.fin 10) ≠
        Outcome.ok (F64.fin (3602879701896397 / 2 ^ 55 * (1 - 10 / 100)))) := by
  refine ⟨⟨⟨2 ^ 53 - 1, 971, by norm_num, by norm_num, by norm_num, ?_⟩,
      ⟨50, 0, by norm_num, by norm_num, by norm_num, by norm_num⟩, by decide!, by decide!⟩,
    ⟨⟨3602879701896397, -55, by norm_num, by norm_num, by norm_num, by norm_num⟩,
      ⟨10, 0, by norm_num, by norm_num, by norm_num, by norm_num⟩, by decide!, by decide!⟩⟩
  unfold maxFloat64
  norm_num

/-- C5, amended. `applyDiscount` returns an error exactly when the percentage compares
below 0 or above 100 (for a finite percentage `p`: `p < 0` or `p > 100`; the
infinities are rejected; `NaN` compares with nothing and is not rejected), and it
never panics.  Without an error the result is the `float64` evaluation of
`amount - amount * percent / 100`.  For finite arguments with the percentage within
`[0, 100]` this is `amount * (1 - percent / 100)` whenever the product, the quotient
and the difference are `float64` values, that is, when no operation rounds.  So
`applyDiscount 100 10` is 90 and `applyDiscount 100 150` is an error. -/
theorem applyDiscount_spec (amount percent : F64) :
    (∀ p : ℚ, percent = F64.fin p →
      ((applyDiscount amount percent).isError = true ↔ (p < 0 ∨ 100 < p))) ∧
    (percent = F64.posInf ∨ percent = F64.negInf →
      (applyDiscount amount percent).isError = true) ∧
    (percent = F64.nan → (applyDiscount amount percent).isError = false) ∧
    (applyDiscount amount percent).isPanic = false ∧
    ((applyDiscount amount percent).isError = false →
      applyDiscount amount percent =
        Outcome.ok (F64.sub amount (F64.div (F64.mul amount percent) (F64.fin 100)))) ∧
    (∀ a p : ℚ, amount = F64.fin a → percent = F64.fin p → 0 ≤ p → p ≤ 100 →
      IsFloat64 (a * p) → IsFloat64 (a * p / 100) → IsFloat64 (a - a * p / 100) →
      applyDiscount amount percent = Outcome.ok (F64.fin (a * (1 - p / 100)))) ∧
    applyDiscount (F64.fin 100) (F64.fin 10) = Outcome.ok (F64.fin 90) ∧
    (applyDiscount (F64.fin 100) (F64.fin 150)).isError = true := by
  have hval : (applyDiscount amount percent).isError = false →
      applyDiscount amount percent =
        Outcome.ok (F64.sub amount (F64.div (F64.mul amount percent) (F64.fin 100))) := by
    intro h
    rw [applyDiscount_isError] at h
    unfold applyDiscount
    rw [h]
    rfl
  refine ⟨?_, ?_, ?_, ?_, hval, ?_, by decide!, by decide!⟩
  · intro p hp
    subst hp
    rw [applyDiscount_isError, Bool.or_eq_true, lt_fin_zero, fin_hundred_lt]
    simp
  · rintro (h | h) <;> subst h <;> rw [applyDiscount_isError] <;> rfl
  · intro h
    subst h
    rw [applyDiscount_isError]
    rfl
  · unfold applyDiscount
    cases (F64.lt percent (F64.fin 0) || F64.lt (F64.fin 100) percent) <;> rfl
  · intro a p ha hp h0 h100 h1 h2 h3
    subst ha
    subst hp
    have hno : (applyDiscount (F64.fin a) (F64.fin p)).isError = false := by
      rw [applyDiscount_isError]
      simp [F64.lt, h0, h100]
    unfold applyDiscount
    rw [applyDiscount_isError] at hno
    rw [hno]
    have e1 : F64.mul (F64.fin a) (F64.fin p) = F64.fin (a * p) :=
      round64_of_isFloat64 _ h1
    have e2 : F64.div (F64.fin (a * p)) (F64.fin 100) = F64.fin (a * p / 100) := by
      simp only [F64.div]
      rw [if_neg (by norm_num)]
      exact round64_of_isFloat64 _ h2
    have e3 : F64.sub (F64.fin a) (F64.fin (a * p / 100)) = F64.fin (a - a * p / 100) := by
      simp only [F64.sub, F64.neg, F64.add]
      rw [← sub_eq_add_neg]
      exact round64_of_isFloat64 _ h3
    simp only [Bool.false_eq_true, if_false]
    rw [e1, e2, e3]
    congr 2
    ring

/-- C5, amended, at the inputs of the spec and of the source: `applyDiscount 100 10`
is 90 (no operation rounds), and the gross total 55.50 at 10 percent gives the
`float64` next to 49.95. -/
theorem applyDiscount_spec_witness :
    ((0 : ℚ) ≤ 10 ∧ (10 : ℚ) ≤ 100 ∧ IsFloat64 (100 * 10) ∧ IsFloat64 (100 * 10 / 100) ∧
      IsFloat64 (100 - 100 * 10 / 100) ∧
      applyDiscount (F64.fin 100) (F64.fin 10) = Outcome.ok (F64.fin (100 * (1 - 10 / 100)))) ∧
    applyDiscount (F64.fin (111 / 2)) (F64.fin 10) = Outcome.ok (round64 (999 / 20)) ∧
    round64 (999 / 20) = F64.fin (3514918771674317 / 2 ^ 46) := by
  have h1 : IsFloat64 (100 * 10) :=
    ⟨1000, 0, by norm_num, by norm_num, by norm_num, by norm_num⟩
  have h2 : IsFloat64 (100 * 10 / 100) :=
    ⟨10, 0, by norm_num, by norm_num, by norm_num, by norm_num⟩
  have h3 : IsFloat64 (100 - 100 * 10 / 100) :=
    ⟨90, 0, by norm_num, by norm_num, by norm_num, by norm_num⟩
  exact ⟨⟨by norm_num, by norm_num, h1, h2, h3,
    (applyDiscount_spec (F64.fin 100) (F64.fin 10)).2.2.2.2.2.1 100 10 rfl rfl
      (by norm_num) (by norm_num) h1 h2 h3⟩, by decide!, by decide!⟩

/-! ## discountGenerator -/

theorem calls_exact (N : Nat) (b : ℚ)
    (h : ∀ k : Nat, 1 ≤ k → k ≤ N → IsFloat64 (b + 5 * (k : ℚ))) :
    DiscountGen.calls N ⟨F64.fin b⟩ =
      ((List.range N).map (fun i : Nat => F64.fin (b + 5 * ((i : ℚ) + 1))),
        ⟨F64.fin (b + 5 * (N : ℚ))⟩) := by
  induction N generalizing b with
  | zero => simp [DiscountGen.calls]
  | succ n ih =>
    have hfirst : F64.add (F64.fin b) (F64.fin 5) = F64.fin (b + 5) := by
      have := h 1 (le_refl 1) (by omega)
      simp only [F64.add]
      apply round64_of_isFloat64
      simpa using this
    have hrest := ih (b + 5) (by
      intro k hk1 hkn
      have := h (k + 1) (by omega) (by omega)
      have e : b + 5 * ((k + 1 : Nat) : ℚ) = b + 5 + 5 * (k : ℚ) := by push_cast; ring
      rw [e] at this
      exact this)
    simp only [DiscountGen.calls, DiscountGen.call, hfirst, hrest]
    rw [List.range_succ_eq_map, List.map_cons, List.map_map]
    congr 1
    · congr 1
      · simp
      · apply List.map_congr_left
        intro i _
        simp only [Function.comp, Nat.cast_succ]
        congr 1
        ring
    · congr 2
      push_cast
      ring

theorem isFloat64_int_steps (z : Int) (N k : Nat) (hz : |z| + 5 * (N : Int) ≤ 2 ^ 53)
    (hk : k ≤ N) : IsFloat64 ((z : ℚ) + 5 * (k : ℚ)) := by
  have h := isFloat64_intCast (z + 5 * (k : Int)) (by
    have h1 : |z + 5 * (k : Int)| ≤ |z| + |5 * (k : Int)| := abs_add _ _
    have h2 : |5 * (k : Int)| = 5 * (k : Int) := abs_of_nonneg (by omega)
    omega)
  have e : ((z + 5 * (k : Int) : Int) : ℚ) = (z : ℚ) + 5 * (k : ℚ) := by push_cast; ring
  rw [e] at h
  exact h

/-- C6, refuted as stated. `2^53` is a `float64` value; `2^53 + 5` is not, and the
first call of the closure on base `2^53` returns `2^53 + 4`.  On base `10^17` three
calls return `10^17` each time: the counter never advances. -/
theorem discountGenerator_exact_counterexample :
    (IsFloat64 (2 ^ 53) ∧
      (DiscountGen.calls 1 (discountGenerator (F64.fin (2 ^ 53)))).1 = [F64.fin (2 ^ 53 + 4)] ∧
      (DiscountGen.calls 1 (discountGenerator (F64.fin (2 ^ 53)))).1.getLast? ≠
        some (F64.fin (2 ^ 53 + 5 * 1))) ∧
    (IsFloat64 (10 ^ 17) ∧
      DiscountGen.calls 3 (discountGenerator (F64.fin (10 ^ 17))) =
        ([F64.fin (10 ^ 17), F64.fin (10 ^ 17), F64.fin (10 ^ 17)], ⟨F64.fin (10 ^ 17)⟩)) := by
  refine ⟨⟨⟨2 ^ 52, 1, by norm_num, by norm_num, by norm_num, by norm_num⟩, by decide!,
      by decide!⟩,
    ⟨5 ^ 17, 17, by norm_num, by norm_num, by norm_num, by norm_num⟩, by decide!⟩

/-- C6, amended. The closure state is the single field `discount`, started at `base`;
one call replaces it by the `float64` sum `discount + 5` and returns the new value.
For a finite base `b` and every `N` such that `b + 5 * k` is a `float64` value for
`k = 1, ..., N` (no addition rounds), `N` sequential calls return
`b + 5 * 1, ..., b + 5 * N` in this order and leave the state at `b + 5 * N`, so for
`N ≥ 1` the `N`-th call returns `b + 5 * N`. -/
theorem discountGenerator_spec (b : ℚ) (N : Nat)
    (hexact : ∀ k : Nat, 1 ≤ k → k ≤ N → IsFloat64 (b + 5 * (k : ℚ))) :
    (∀ base : F64, (discountGenerator base).discount = base) ∧
    (∀ g : DiscountGen,
      g.call = (F64.add g.discount (F64.fin 5), ⟨F64.add g.discount (F64.fin 5)⟩)) ∧
    (DiscountGen.calls N (discountGenerator (F64.fin b))).1 =
      (List.range N).map (fun i : Nat => F64.fin (b + 5 * ((i : ℚ) + 1))) ∧
    (DiscountGen.calls N (discountGenerator (F64.fin b))).2 = ⟨F64.fin (b + 5 * (N : ℚ))⟩ ∧
    (1 ≤ N → (DiscountGen.calls N (discountGenerator (F64.fin b))).1.getLast? =
      some (F64.fin (b + 5 * (N : ℚ)))) := by
  have h := calls_exact N b hexact
  have h1 : (DiscountGen.calls N (discountGenerator (F64.fin b))).1 =
      (List.range N).map (fun i : Nat => F64.fin (b + 5 * ((i : ℚ) + 1))) := by
    unfold discountGenerator
    rw [h]
  refine ⟨fun base => rfl, fun g => rfl, h1, ?_, ?_⟩
  · unfold discountGenerator
    rw [h]
  · intro hN
    obtain ⟨k, rfl⟩ : ∃ k, N = k + 1 := ⟨N - 1, by omega⟩
    rw [h1, List.range_succ, List.map_append, List.map_singleton,
      List.getLast?_append_of_ne_nil _ (by simp), List.getLast?_singleton]
    simp

/-- C6, amended, at the base of the source: from base 5 the sums 10, 15, 20 are
`float64` values and three calls return 10, 15, 20; the first call gives 10. -/
theorem discountGenerator_spec_witness :
    (∀ k : Nat, 1 ≤ k → k ≤ 3 → IsFloat64 ((5 : ℚ) + 5 * (k : ℚ))) ∧
    (DiscountGen.calls 3 (discountGenerator (F64.fin 5))).1 =
      [F64.fin 10, F64.fin 15, F64.fin 20] ∧
    (DiscountGen.calls 3 (discountGenerator (F64.fin 5))).1.getLast? = some (F64.fin 20) ∧
    (DiscountGen.calls 1 (discountGenerator (F64.fin 5))).1 = [F64.fin 10] := by
  have hex : ∀ k : Nat, 1 ≤ k → k ≤ 3 → IsFloat64 ((5 : ℚ) + 5 * (k : ℚ)) := by
    intro k _ hk
    have := isFloat64_int_steps 5 3 k (by norm_num) hk
    simpa using this
  have h := discountGenerator_spec 5 3 hex
  refine ⟨hex, ?_, ?_, by decide!⟩
  · rw [h.2.2.1]
    simp [List.range_succ]
    norm_num
  · rw [h.2.2.2.2 (by norm_num)]
    norm_num

/-! ## validateIP -/

theorem splitDot_ne_nil (s : List Char) : splitDot s ≠ [] := by
  cases s with
  | nil => simp [splitDot]
  | cons c cs =>
    simp only [splitDot]
    split_ifs
    · simp
    · split <;> simp

theorem splitDot_length (s : List Char) : (splitDot s).length = s.count '.' + 1 := by
  induction s with
  | nil => simp [splitDot]
  | cons c cs ih =>
    simp only [splitDot]
    by_cases hc : c = '.'
    · subst hc
      simp [ih]
    · rw [if_neg hc, List.count_cons_of_ne (fun h => hc h.symm)]
      cases hs : splitDot cs with
      | nil => exact absurd hs (splitDot_ne_nil cs)
      | cons seg rest =>
        rw [hs] at ih
        simpa using ih

theorem splitDot_no_dot (s : List Char) : ∀ seg ∈ splitDot s, '.' ∉ seg := by
  induction s with
  | nil => simp [splitDot]
  | cons c cs ih =>
    simp only [splitDot]
    by_cases hc : c = '.'
    · subst hc
      intro seg hseg
      rw [if_pos rfl] at hseg
      rcases List.mem_cons.1 hseg with rfl | h
      · simp
      · exact ih seg h
    · rw [if_neg hc]
      cases hs : splitDot cs with
      | nil => exact absurd hs (splitDot_ne_nil cs)
      | cons seg rest =>
        rw [hs] at ih
        intro seg1 hseg1
        rcases List.mem_cons.1 hseg1 with rfl | h
        · intro hmem
          rcases List.mem_cons.1 hmem with h | h
          · exact hc h.symm
          · exact ih seg (List.mem_cons_self _ _) h
        · exact ih seg1 (List.mem_cons_of_mem _ h)

theorem splitDot_join (s : List Char) : List.intercalate ['.'] (splitDot s) = s := by
  induction s with
  | nil => simp [splitDot, List.intercalate]
  | cons c cs ih =>
    simp only [splitDot]
    cases hs : splitDot cs with
    | nil => exact absurd hs (splitDot_ne_nil cs)
    | cons seg rest =>
      rw [hs] at ih
      by_cases hc : c = '.'
      · subst hc
        rw [if_pos rfl]
        simp only [List.intercalate, List.intersperse] at ih ⊢
        simp only [List.flatten_cons, List.nil_append, List.singleton_append, ih]
      · rw [if_neg hc]
        cases rest with
        | nil =>
          simp only [List.intercalate, List.intersperse] at ih ⊢
          simp at ih ⊢
          exact ih
        | cons seg2 rest2 =>
          simp only [List.intercalate, List.intersperse] at ih ⊢
          simp at ih ⊢
          exact ih

theorem stringsSplitDot_length (s : String) :
    (stringsSplitDot s).length = s.data.count '.' + 1 := by
  simp [stringsSplitDot, splitDot_length]

/-- C7. `validateIP s` is true exactly when `strings.Split(s, ".")` has four parts,
that is, exactly when `s` holds three dots; what the parts hold plays no role (they
may be empty or non-numeric). -/
theorem validateIP_spec (s : String) :
    (validateIP s = true ↔ (stringsSplitDot s).length = 4) ∧
    (validateIP s = true ↔ s.data.count '.' = 3) ∧
    validateIP "192.168.1.1" = true ∧ validateIP "192.168.1" = false ∧
    validateIP "a.b.c.d" = true ∧ validateIP "..." = true := by
  have h1 : validateIP s = true ↔ (stringsSplitDot s).length = 4 := by
    simp [validateIP]
  refine ⟨h1, ?_, by decide, by decide, by decide, by decide⟩
  rw [h1, stringsSplitDot_length]
  omega

/-! ## longestName -/

theorem longestNameLoop_spec (ds : List String) (cur : String) :
    (longestNameLoop cur ds = cur ∧ ∀ x ∈ ds, goLen x ≤ goLen cur) ∨
    (∃ pre post, ds = pre ++ longestNameLoop cur ds :: post ∧
      goLen cur < goLen (longestNameLoop cur ds) ∧
      (∀ x ∈ pre, goLen x < goLen (longestNameLoop cur ds)) ∧
      ∀ x ∈ post, goLen x ≤ goLen (longestNameLoop cur ds)) := by
  induction ds generalizing cur with
  | nil => left; simp [longestNameLoop]
  | cons d ds ih =>
    simp only [longestNameLoop]
    by_cases hd : goLen d > goLen cur
    · rw [if_pos hd]
      right
      rcases ih d with ⟨hr, hall⟩ | ⟨pre, post, hsplit, hlt, hpre, hpost⟩
      · refine ⟨[], ds, by rw [hr]; rfl, by rw [hr]; exact hd, by simp, ?_⟩
        rw [hr]; exact hall
      · refine ⟨d :: pre, post, by rw [List.cons_append, ← hsplit], lt_trans hd hlt, ?_, hpost⟩
        intro x hx
        rcases List.mem_cons.1 hx with rfl | hx
        · exact hlt
        · exact hpre x hx
    · rw [if_neg hd]
      rcases ih cur with ⟨hr, hall⟩ | ⟨pre, post, hsplit, hlt, hpre, hpost⟩
      · left
        refine ⟨hr, ?_⟩
        intro x hx
        rcases List.mem_cons.1 hx with rfl | hx
        · exact not_lt.1 hd
        · exact hall x hx
      · right
        refine ⟨d :: pre, post, by rw [List.cons_append, ← hsplit], hlt, ?_, hpost⟩
        intro x hx
        rcases List.mem_cons.1 hx with rfl | hx
        · exact lt_of_le_of_lt (not_lt.1 hd) hlt
        · exact hpre x hx

/-- C8. On every non-empty list `longestName` returns an element `r` of the list that
is at least as long as every element, and every element before the returned
occurrence is strictly shorter: of the names of maximal length the first wins. -/
theorem longestName_spec (devices : List String) (hne : devices ≠ []) :
    ∃ r, longestName devices = Outcome.ok r ∧ r ∈ devices ∧
      (∀ x ∈ devices, goLen x ≤ goLen r) ∧
      ∃ pre post, devices = pre ++ r :: post ∧ ∀ x ∈ pre, goLen x < goLen r := by
  cases devices with
  | nil => exact absurd rfl hne
  | cons d0 rest =>
    have key : ∃ pre post, d0 :: rest = pre ++ longestNameLoop d0 (d0 :: rest) :: post ∧
        (∀ x ∈ pre, goLen x < goLen (longestNameLoop d0 (d0 :: rest))) ∧
        ∀ x ∈ post, goLen x ≤ goLen (longestNameLoop d0 (d0 :: rest)) := by
      rcases longestNameLoop_spec (d0 :: rest) d0 with
        ⟨hr, hall⟩ | ⟨pre, post, hsplit, _, hpre, hpost⟩
      · refine ⟨[], rest, by rw [hr]; rfl, by simp, ?_⟩
        intro x hx
        rw [hr]
        exact hall x (List.mem_cons_of_mem _ hx)
      · exact ⟨pre, post, hsplit, hpre, hpost⟩
    obtain ⟨pre, post, hsplit, hpre, hpost⟩ := key
    refine ⟨longestNameLoop d0 (d0 :: rest), rfl, ?_, ?_, pre, post, hsplit, hpre⟩
    · have hmem : longestNameLoop d0 (d0 :: rest) ∈
          pre ++ longestNameLoop d0 (d0 :: rest) :: post := by simp
      rw [← hsplit] at hmem
      exact hmem
    · intro x hx
      rw [hsplit] at hx
      rcases List.mem_append.1 hx with h | h
      · exact le_of_lt (hpre x h)
      · rcases List.mem_cons.1 h with h | h
        · rw [h]
        · exact hpost x h

/-- C8 at the sample of the source, and on a tie: of `Router1` and `Switch01` the
longer `Switch01` is returned; of `ab`, `cd`, `e` the first of the two longest. -/
theorem longestName_spec_witness :
    (["ab", "cd", "e"] : List String) ≠ [] ∧
    (∃ r, longestName ["ab", "cd", "e"] = Outcome.ok r ∧ r ∈ ["ab", "cd", "e"] ∧
      (∀ x ∈ ["ab", "cd", "e"], goLen x ≤ goLen r) ∧
      ∃ pre post, ["ab", "cd", "e"] = pre ++ r :: post ∧ ∀ x ∈ pre, goLen x < goLen r) ∧
    longestName ["ab", "cd", "e"] = Outcome.ok "ab" ∧
    longestName ["Router1", "Switch01"] = Outcome.ok "Switch01" :=
  ⟨by decide, longestName_spec ["ab", "cd", "e"] (by decide), by decide, by decide⟩

/-! ## countActive -/

theorem countActiveLoop_eq (es : List (String × Bool)) (count : Int) :
    countActiveLoop count es = count + (es.countP (fun e => e.2) : Int) := by
  induction es generalizing count with
  | nil => simp [countActiveLoop]
  | cons e es ih =>
    simp only [countActiveLoop]
    rw [ih]
    cases he : e.2
    · simp [List.countP_cons, he]
    · simp [List.countP_cons, he]
      ring

theorem countActive_eq (es : List (String × Bool)) :
    countActive es = (es.countP (fun e => e.2) : Int) := by
  simp [countActive, countActiveLoop_eq]

theorem mapGet_of_mem (status : List (String × Bool)) (hmap : IsGoMap status)
    (e : String × Bool) (he : e ∈ status) : mapGet status e.1 = some e.2 := by
  induction status with
  | nil => simp at he
  | cons h t ih =>
    unfold IsGoMap at hmap ih
    rw [List.map_cons, List.nodup_cons] at hmap
    rcases List.mem_cons.1 he with rfl | het
    · simp [mapGet, List.find?_cons]
    · have hne : h.1 ≠ e.1 := by
        intro heq
        exact hmap.1 (heq ▸ List.mem_map_of_mem Prod.fst het)
      have := ih hmap.2 het
      simp only [mapGet, List.find?_cons] at this ⊢
      simp [hne, this]

theorem keys_true_length (status : List (String × Bool)) (hmap : IsGoMap status) :
    ((status.map Prod.fst).filter (fun k => decide (mapGet status k = some true))).length =
      status.countP (fun e => e.2) := by
  rw [← List.countP_eq_length_filter, List.countP_map]
  apply List.countP_congr
  intro e he
  simp only [Function.comp, mapGet_of_mem status hmap e he]
  cases e.2 <;> simp

/-- C9. For a map `status` (every key once) and every order `order` in which its
entries may be delivered, `countActive` returns the number of keys whose value is
true, so the result is the same for every order. -/
theorem countActive_spec (status order : List (String × Bool)) (hmap : IsGoMap status)
    (horder : order.Perm status) :
    countActive order =
      (((status.map Prod.fst).filter
        (fun k => decide (mapGet status k = some true))).length : Int) ∧
    ∀ other : List (String × Bool), other.Perm status → countActive other = countActive order := by
  have h : ∀ l : List (String × Bool), l.Perm status →
      countActive l = (status.countP (fun e => e.2) : Int) := by
    intro l hl
    rw [countActive_eq, hl.countP_eq]
  refine ⟨?_, fun other hother => ?_⟩
  · rw [h order horder, keys_true_length status hmap]
  · rw [h other hother, h order horder]

/-- C9 at the map of the spec, delivered in another order than written: two keys
are active. -/
theorem countActive_spec_witness :
    IsGoMap [("a", true), ("b", false), ("c", true)] ∧
    List.Perm [("c", true), ("a", true), ("b", false)] [("a", true), ("b", false), ("c", true)] ∧
    countActive [("c", true), ("a", true), ("b", false)] = 2 ∧
    countActive [("a", true), ("b", false), ("c", true)] = 2 := by
  have hmap : IsGoMap [("a", true), ("b", false), ("c", true)] := by decide
  have hperm : List.Perm [("c", true), ("a", true), ("b", false)]
      [("a", true), ("b", false), ("c", true)] := by decide
  have h := (countActive_spec _ _ hmap hperm).1
  refine ⟨hmap, hperm, ?_, by decide⟩
  rw [h]
  decide

/-! ## generateConfig -/

/-- C10. For an active device `generateConfig` is the fixed template of eight lines
with the name and the address put in; for an inactive device it is the same eight
lines followed by the one line `shutdown`. -/
theorem generateConfig_spec (name ip : String) :
    generateConfig name ip true =
      ["hostname " ++ name, "interface eth0", "  ip address " ++ ip ++ "/24",
        "  no shutdown", "enable secret admin123", "line vty 0 4", "  login local",
        "  transport input ssh"] ∧
    generateConfig name ip false = generateConfig name ip true ++ ["shutdown"] ∧
    generateConfig "Switch01" "192.168.1.10" false =
      ["hostname Switch01", "interface eth0", "  ip address 192.168.1.10/24",
        "  no shutdown", "enable secret admin123", "line vty 0 4", "  login local",
        "  transport input ssh", "shutdown"] := by
  refine ⟨?_, ?_, by decide⟩
  · simp [generateConfig, sprintfS]
  · simp [generateConfig]

end GoLearn
